import Mathlib

/-!
Verification of the Essentia video editor plugin core against its
specification.  The Rust source is shallowly embedded: machine integers
(u32, u64) become natural numbers with explicit range side conditions,
f64 / f32 values become real (or rational, where the code only divides
and clamps) numbers, fallible operations return Option / Except, and
mutation becomes explicit state passing.  Definitions follow the source
files field by field; theorems then settle the specified properties.
-/

namespace EssentiaSpec

/-- Time position in milliseconds (src/types/core.rs, struct TimePosition,
ms: u64 modeled as Nat). -/
structure TimePosition where
  ms : Nat
deriving DecidableEq, Repr

/-! ## EVLF binary header (src/evlf_types.rs) -/

/-- EVLF magic number: "EVLF" (src/evlf_types.rs, EVLF_MAGIC). -/
def EVLF_MAGIC : Nat := 0x45564C46

/-- Current format version 1.0.0 (src/evlf_types.rs, EVLF_VERSION). -/
def EVLF_VERSION : Nat := 0x00010000

/-- Header size in bytes (src/evlf_types.rs, EVLF_HEADER_SIZE). -/
def EVLF_HEADER_SIZE : Nat := 64

/-- EVLF container header, 64 bytes (src/evlf_types.rs, struct EvlfHeader).
u32 / u64 fields are modeled as Nat; the well-formedness predicate
`EvlfHeader.Wf` records the machine-integer ranges. -/
@[ext] structure EvlfHeader where
  magic          : Nat
  version        : Nat
  flags          : Nat
  trackCount     : Nat
  frameCount     : Nat
  durationMs     : Nat
  width          : Nat
  height         : Nat
  frameRateNum   : Nat
  frameRateDen   : Nat
  metadataOffset : Nat
  indexOffset    : Nat
deriving DecidableEq, Repr

namespace EvlfHeader

/-- Machine-integer ranges of the header fields (u32 for the four-byte
fields, u64 for the eight-byte fields). -/
def Wf (h : EvlfHeader) : Prop :=
  h.magic < 2 ^ 32 ∧ h.version < 2 ^ 32 ∧ h.flags < 2 ^ 32 ∧
  h.trackCount < 2 ^ 32 ∧ h.frameCount < 2 ^ 64 ∧ h.durationMs < 2 ^ 64 ∧
  h.width < 2 ^ 32 ∧ h.height < 2 ^ 32 ∧ h.frameRateNum < 2 ^ 32 ∧
  h.frameRateDen < 2 ^ 32 ∧ h.metadataOffset < 2 ^ 64 ∧ h.indexOffset < 2 ^ 64

instance (h : EvlfHeader) : Decidable h.Wf := by
  unfold Wf; infer_instance

/-- `EvlfHeader::new` (src/evlf_types.rs). -/
def new (width height frameRateNum frameRateDen : Nat) : EvlfHeader :=
  { magic := EVLF_MAGIC
    version := EVLF_VERSION
    flags := 0
    trackCount := 0
    frameCount := 0
    durationMs := 0
    width := width
    height := height
    frameRateNum := frameRateNum
    frameRateDen := frameRateDen
    metadataOffset := 0
    indexOffset := 0 }

/-- `EvlfHeader::is_valid` (src/evlf_types.rs): checks the magic number. -/
def isValid (h : EvlfHeader) : Bool :=
  h.magic == EVLF_MAGIC

/-- Little-endian byte encoding of a u32 value
(`u32::to_le_bytes` as used by `EvlfHeader::write_u32`). -/
def u32le (v : Nat) : List Nat :=
  [v % 2 ^ 8, v / 2 ^ 8 % 2 ^ 8, v / 2 ^ 16 % 2 ^ 8, v / 2 ^ 24 % 2 ^ 8]

/-- Little-endian byte encoding of a u64 value
(`u64::to_le_bytes` as used by `EvlfHeader::write_u64`). -/
def u64le (v : Nat) : List Nat :=
  [v % 2 ^ 8, v / 2 ^ 8 % 2 ^ 8, v / 2 ^ 16 % 2 ^ 8, v / 2 ^ 24 % 2 ^ 8,
   v / 2 ^ 32 % 2 ^ 8, v / 2 ^ 40 % 2 ^ 8, v / 2 ^ 48 % 2 ^ 8, v / 2 ^ 56 % 2 ^ 8]

/-- `EvlfHeader::read_u32` (src/evlf_types.rs): little-endian u32 at a byte
offset.  Out-of-range indexing is modeled by `getD _ 0`; all callers stay
in range thanks to the length guard in `fromBytes`. -/
def readU32 (bytes : List Nat) (off : Nat) : Nat :=
  bytes.getD off 0 + 2 ^ 8 * bytes.getD (off + 1) 0 +
    2 ^ 16 * bytes.getD (off + 2) 0 + 2 ^ 24 * bytes.getD (off + 3) 0

/-- `EvlfHeader::read_u64` (src/evlf_types.rs): little-endian u64 at a byte
offset. -/
def readU64 (bytes : List Nat) (off : Nat) : Nat :=
  bytes.getD off 0 + 2 ^ 8 * bytes.getD (off + 1) 0 +
    2 ^ 16 * bytes.getD (off + 2) 0 + 2 ^ 24 * bytes.getD (off + 3) 0 +
    2 ^ 32 * bytes.getD (off + 4) 0 + 2 ^ 40 * bytes.getD (off + 5) 0 +
    2 ^ 48 * bytes.getD (off + 6) 0 + 2 ^ 56 * bytes.getD (off + 7) 0

/-- `EvlfHeader::to_bytes` (src/evlf_types.rs): 64 little-endian bytes in
declared field order (the sequential `write_u32` / `write_u64` calls become
list concatenation). -/
def toBytes (h : EvlfHeader) : List Nat :=
  u32le h.magic ++ u32le h.version ++ u32le h.flags ++ u32le h.trackCount ++
    u64le h.frameCount ++ u64le h.durationMs ++ u32le h.width ++ u32le h.height ++
    u32le h.frameRateNum ++ u32le h.frameRateDen ++ u64le h.metadataOffset ++
    u64le h.indexOffset

/-- `EvlfHeader::from_bytes` (src/evlf_types.rs): fails exactly on short
input, otherwise decodes the twelve fields little-endian at their fixed
offsets. -/
def fromBytes (bytes : List Nat) : Option EvlfHeader :=
  if bytes.length < EVLF_HEADER_SIZE then
    none
  else
    some
      { magic := readU32 bytes 0
        version := readU32 bytes 4
        flags := readU32 bytes 8
        trackCount := readU32 bytes 12
        frameCount := readU64 bytes 16
        durationMs := readU64 bytes 24
        width := readU32 bytes 32
        height := readU32 bytes 36
        frameRateNum := readU32 bytes 40
        frameRateDen := readU32 bytes 44
        metadataOffset := readU64 bytes 48
        indexOffset := readU64 bytes 56 }

end EvlfHeader

/-! ## Keyframe animation engine (src/implementation/keyframe_animation.rs)

f64 values are modeled as real numbers; the easing formulas therefore use
exact real arithmetic (`Real.rpow`, `Real.sin`, `Real.pi`).  Literal
decimal constants of the source (7.5625, 2.75, ...) are exactly
representable in binary floating point, so the real literals denote the
same values the Rust code computes with, up to f64 rounding of the
arithmetic itself. -/

/-- Rust `f64::clamp(lo, hi)`: below the range gives lo, above gives hi
(NaN behavior out of scope in the real-number model). -/
noncomputable def fclamp (x lo hi : ℝ) : ℝ :=
  if x < lo then lo else if hi < x then hi else x

/-- Rust `f64::EPSILON` (2^-52), used in exact float comparisons of the
source. -/
noncomputable def f64Epsilon : ℝ := 1 / 2 ^ 52

/-- Interpolation type between keyframes
(src/implementation/keyframe_animation.rs, enum InterpolationType). -/
inductive InterpolationType where
  | hold
  | linear
  | bezier
  | easeIn
  | easeOut
  | easeInOut
  | cubicIn
  | cubicOut
  | cubicInOut
  | exponentialIn
  | exponentialOut
  | bounce
  | elastic
deriving DecidableEq, Repr

/-- `InterpolationType::evaluate` (src/implementation/keyframe_animation.rs):
evaluates the easing function at t, after clamping t to [0, 1]. -/
noncomputable def InterpolationType.evaluate (i : InterpolationType) (t0 : ℝ) : ℝ :=
  let t := fclamp t0 0 1
  match i with
  | .hold => 0
  | .linear => t
  | .bezier => t
  | .easeIn => t * t
  | .easeOut => 1 - (1 - t) * (1 - t)
  | .easeInOut =>
      if t < 0.5 then 2 * t * t else 1 - (-2 * t + 2) ^ (2 : ℕ) / 2
  | .cubicIn => t * t * t
  | .cubicOut => 1 - (1 - t) ^ (3 : ℕ)
  | .cubicInOut =>
      if t < 0.5 then 4 * t * t * t else 1 - (-2 * t + 2) ^ (3 : ℕ) / 2
  | .exponentialIn =>
      if t = 0 then 0 else (2 : ℝ) ^ (10 * t - 10)
  | .exponentialOut =>
      if |t - 1| < f64Epsilon then 1 else 1 - (2 : ℝ) ^ (-10 * t)
  | .bounce =>
      let n1 : ℝ := 7.5625
      let d1 : ℝ := 2.75
      let t1 := 1 - t
      let b :=
        if t1 < 1 / d1 then n1 * t1 * t1
        else if t1 < 2 / d1 then
          let t2 := t1 - 1.5 / d1
          n1 * t2 * t2 + 0.75
        else if t1 < 2.5 / d1 then
          let t2 := t1 - 2.25 / d1
          n1 * t2 * t2 + 0.9375
        else
          let t2 := t1 - 2.625 / d1
          n1 * t2 * t2 + 0.984375
      1 - b
  | .elastic =>
      let c4 := 2 * Real.pi / 3
      if t = 0 then 0
      else if |t - 1| < f64Epsilon then 1
      else (2 : ℝ) ^ (-10 * t) * Real.sin ((t * 10 - 0.75) * c4) + 1

/-- Bezier curve handle (src/implementation/keyframe_animation.rs,
struct BezierHandle). -/
structure BezierHandle where
  x : ℝ
  y : ℝ

/-- `BezierHandle::flat` (src/implementation/keyframe_animation.rs). -/
noncomputable def BezierHandle.flat : BezierHandle := ⟨0.1, 0⟩

/-- Value type for animated properties
(src/implementation/keyframe_animation.rs, enum AnimatedValue).  The f32
components of Color are also modeled as reals. -/
inductive AnimatedValue where
  | float (v : ℝ)
  | vec2 (x y : ℝ)
  | vec3 (x y z : ℝ)
  | vec4 (x y z w : ℝ)
  | color (r g b a : ℝ)
  | bool (b : Bool)
  | int (v : ℤ)

/-- Rust `f64 as i64`: truncation toward zero (saturation at the i64
bounds is out of scope; the claims never exercise it). -/
noncomputable def i64OfReal (x : ℝ) : ℤ :=
  if 0 ≤ x then ⌊x⌋ else ⌈x⌉

/-- `AnimatedValue::lerp` (src/implementation/keyframe_animation.rs):
component-wise interpolation; Bool and mismatched variants return the
first operand unchanged. -/
noncomputable def AnimatedValue.lerp (a b : AnimatedValue) (t : ℝ) : AnimatedValue :=
  match a, b with
  | .float x, .float y => .float (x + t * (y - x))
  | .vec2 ax ay, .vec2 bx by' => .vec2 (ax + t * (bx - ax)) (ay + t * (by' - ay))
  | .vec3 ax ay az, .vec3 bx by' bz =>
      .vec3 (ax + t * (bx - ax)) (ay + t * (by' - ay)) (az + t * (bz - az))
  | .vec4 ax ay az aw, .vec4 bx by' bz bw =>
      .vec4 (ax + t * (bx - ax)) (ay + t * (by' - ay)) (az + t * (bz - az))
        (aw + t * (bw - aw))
  | .color ar ag ab aa, .color br bg bb ba =>
      .color (ar + t * (br - ar)) (ag + t * (bg - ag)) (ab + t * (bb - ab))
        (aa + t * (ba - aa))
  | .bool x, .bool _ => .bool x
  | .int x, .int y => .int (i64OfReal ((x : ℝ) + t * ((y : ℝ) - (x : ℝ))))
  | _, _ => a

/-- A single keyframe (src/implementation/keyframe_animation.rs,
struct Keyframe). -/
structure Keyframe where
  time          : TimePosition
  value         : AnimatedValue
  interpolation : InterpolationType
  handleIn      : BezierHandle
  handleOut     : BezierHandle
  selected      : Bool

/-- `Keyframe::new` (src/implementation/keyframe_animation.rs): default
interpolation Linear, flat handles, not selected. -/
noncomputable def Keyframe.new (time : TimePosition) (value : AnimatedValue) : Keyframe :=
  { time := time
    value := value
    interpolation := .linear
    handleIn := BezierHandle.flat
    handleOut := BezierHandle.flat
    selected := false }

/-- Loop mode (src/implementation/keyframe_animation.rs,
enum AnimationLoopMode). -/
inductive AnimationLoopMode where
  | none
  | loop
  | pingPong
  | cycle
deriving DecidableEq, Repr

/-- Animation track (src/implementation/keyframe_animation.rs,
struct AnimationTrack).  The id is the inner u64 of AnimationTrackId. -/
structure AnimationTrack where
  id           : Nat
  property     : String
  keyframes    : List Keyframe
  enabled      : Bool
  muted        : Bool
  defaultValue : AnimatedValue
  loopMode     : AnimationLoopMode

namespace AnimationTrack

/-- `AnimationTrack::new` (src/implementation/keyframe_animation.rs). -/
def new (id : Nat) (property : String) (defaultValue : AnimatedValue) : AnimationTrack :=
  { id := id
    property := property
    keyframes := []
    enabled := true
    muted := false
    defaultValue := defaultValue
    loopMode := .none }

/-- `AnimationTrack::add_keyframe` (src/implementation/keyframe_animation.rs):
inserts at the sorted position (first index whose time is strictly
greater), or replaces in place when the preceding slot holds the same
timestamp.  Returns the updated track and the index, like the source's
usize return value.  The `getD` default is irrelevant: it is only read
when 0 < pos, in which case pos - 1 is in range. -/
noncomputable def addKeyframe (tr : AnimationTrack) (time : TimePosition)
    (value : AnimatedValue) : AnimationTrack × Nat :=
  let keyframe := Keyframe.new time value
  let pos := tr.keyframes.findIdx (fun k => decide (time.ms < k.time.ms))
  if 0 < pos ∧ (tr.keyframes.getD (pos - 1) keyframe).time.ms = time.ms then
    ({ tr with keyframes := tr.keyframes.set (pos - 1) keyframe }, pos - 1)
  else
    ({ tr with keyframes := tr.keyframes.insertIdx pos keyframe }, pos)

/-- `AnimationTrack::find_keyframes` (src/implementation/keyframe_animation.rs):
locates the keyframes around a time position via the first keyframe at or
after the queried time. -/
def findKeyframes (tr : AnimationTrack) (time : TimePosition) :
    Option Keyframe × Option Keyframe :=
  if tr.keyframes.isEmpty then (none, none)
  else
    match tr.keyframes.findIdx? (fun k => decide (time.ms ≤ k.time.ms)) with
    | none => (tr.keyframes.getLast?, none)
    | some 0 => (none, tr.keyframes.head?)
    | some (i + 1) => (tr.keyframes[i]?, tr.keyframes[i + 1]?)

/-- Cubic bezier component (src/implementation/keyframe_animation.rs,
`AnimationTrack::bezier_component`). -/
noncomputable def bezierComponent (t p0 p1 p2 p3 : ℝ) : ℝ :=
  let mt := 1 - t
  mt * mt * mt * p0 + 3 * mt * mt * t * p1 + 3 * mt * t * t * p2 + t * t * t * p3

/-- Cubic bezier derivative (src/implementation/keyframe_animation.rs,
`AnimationTrack::bezier_derivative`). -/
noncomputable def bezierDerivative (t p0 p1 p2 p3 : ℝ) : ℝ :=
  let mt := 1 - t
  3 * mt * mt * (p1 - p0) + 6 * mt * t * (p2 - p1) + 3 * t * t * (p3 - p2)

/-- One iteration of the Newton-Raphson loop in
`AnimationTrack::evaluate_bezier`.  The source's `break` on a tiny
derivative is modeled by leaving the guess unchanged, which is equivalent:
the derivative only depends on the guess, so once it is tiny every later
iteration also leaves the guess unchanged. -/
noncomputable def newtonStep (t p1x p2x guess : ℝ) : ℝ :=
  let x := bezierComponent guess 0 p1x p2x 1
  let dx := bezierDerivative guess 0 p1x p2x 1
  if |dx| < 1e-10 then guess else fclamp (guess - (x - t) / dx) 0 1

/-- The 8-iteration Newton-Raphson loop of
`AnimationTrack::evaluate_bezier`. -/
noncomputable def newtonIter : Nat → ℝ → ℝ → ℝ → ℝ → ℝ
  | 0, _, _, _, guess => guess
  | n + 1, t, p1x, p2x, guess => newtonIter n t p1x p2x (newtonStep t p1x p2x guess)

/-- `AnimationTrack::evaluate_bezier`
(src/implementation/keyframe_animation.rs). -/
noncomputable def evaluateBezier (t : ℝ) (prev next : Keyframe) : ℝ :=
  let p1x := fclamp prev.handleOut.x 0 1
  let p1y := prev.handleOut.y
  let p2x := fclamp (1 - next.handleIn.x) 0 1
  let p2y := 1 - next.handleIn.y
  let guess := newtonIter 8 t p1x p2x t
  bezierComponent guess 0 p1y p2y 1

/-- `AnimationTrack::evaluate` (src/implementation/keyframe_animation.rs).
The u64 subtractions of the source become Nat subtractions; both agree on
every path the function actually takes (the prev keyframe returned by
`find_keyframes` is always strictly earlier than the queried time). -/
noncomputable def evaluate (tr : AnimationTrack) (time : TimePosition) : AnimatedValue :=
  if tr.enabled = false ∨ tr.keyframes.isEmpty then tr.defaultValue
  else if tr.muted then
    match tr.keyframes with
    | [] => tr.defaultValue
    | k :: _ => k.value
  else
    match findKeyframes tr time with
    | (none, none) => tr.defaultValue
    | (none, some kf) => kf.value
    | (some kf, none) => kf.value
    | (some prev, some next) =>
        if prev.time.ms = time.ms then prev.value
        else if prev.interpolation = InterpolationType.hold then prev.value
        else
          let duration : ℝ := ((next.time.ms - prev.time.ms : ℕ) : ℝ)
          let elapsed : ℝ := ((time.ms - prev.time.ms : ℕ) : ℝ)
          let t := if duration > 0 then elapsed / duration else 0
          let easedT :=
            if prev.interpolation = InterpolationType.bezier then
              evaluateBezier t prev next
            else
              prev.interpolation.evaluate t
          prev.value.lerp next.value easedT

end AnimationTrack

/-- Strict time-sortedness of a keyframe list: the invariant the source
maintains for `AnimationTrack::keyframes`. -/
def KeyframesSorted (l : List Keyframe) : Prop :=
  l.Pairwise (fun a b => a.time.ms < b.time.ms)

/-- Concrete keyframe at t = 0 ms, value 0.0, Hold interpolation. -/
noncomputable def holdSampleKf0 : Keyframe :=
  { time := ⟨0⟩
    value := AnimatedValue.float 0
    interpolation := .hold
    handleIn := BezierHandle.flat
    handleOut := BezierHandle.flat
    selected := false }

/-- Concrete keyframe at t = 1000 ms, value 100.0, Linear interpolation. -/
noncomputable def holdSampleKf1 : Keyframe :=
  { time := ⟨1000⟩
    value := AnimatedValue.float 100
    interpolation := .linear
    handleIn := BezierHandle.flat
    handleOut := BezierHandle.flat
    selected := false }

/-- Concrete enabled, unmuted track holding the two keyframes above. -/
noncomputable def holdSampleTrack : AnimationTrack :=
  { id := 7
    property := "opacity"
    keyframes := [holdSampleKf0, holdSampleKf1]
    enabled := true
    muted := false
    defaultValue := AnimatedValue.float 0
    loopMode := .none }

/-- Concrete muted track with no keyframes. -/
def mutedEmptyTrack : AnimationTrack :=
  { AnimationTrack.new 3 "scale" (AnimatedValue.bool true) with muted := true }

/-- Concrete track that is both disabled and muted, with one keyframe. -/
noncomputable def disabledMutedTrack : AnimationTrack :=
  { id := 4
    property := "blur"
    keyframes := [holdSampleKf1]
    enabled := false
    muted := true
    defaultValue := AnimatedValue.float 42
    loopMode := .none }

/-! ## Timeline types (src/types/timeline.rs)

The f32 speed multiplier is modeled as a rational number (every finite f32
is rational); the `as u64` cast of the source becomes floor-toward-zero
with negative values saturating to zero, exactly as in Rust (high
saturation at u64::MAX is out of scope). -/

/-- Rust `f64 as u64` for the finite range: truncation toward zero, with
negatives mapping to 0. -/
def u64OfRat (q : ℚ) : Nat := ⌊q⌋.toNat

/-- Track type (src/types/timeline.rs, enum TrackType). -/
inductive TrackType where
  | video
  | audio
  | subtitle
  | data
  | effect
deriving DecidableEq, Repr

/-- Timeline clip reference (src/types/timeline.rs, struct TimelineClip). -/
structure TimelineClip where
  id       : Nat
  start    : TimePosition
  duration : TimePosition
  sourceId : Nat
  inPoint  : TimePosition
  outPoint : TimePosition
  speed    : ℚ
  enabled  : Bool
  name     : String
deriving DecidableEq, Repr

namespace TimelineClip

/-- `TimelineClip::new` (src/types/timeline.rs). -/
def new (id sourceId : Nat) (start duration : TimePosition) : TimelineClip :=
  { id := id
    start := start
    duration := duration
    sourceId := sourceId
    inPoint := ⟨0⟩
    outPoint := duration
    speed := 1
    enabled := true
    name := "" }

/-- `TimelineClip::end` (src/types/timeline.rs): start + duration. -/
def endPos (c : TimelineClip) : TimePosition :=
  ⟨c.start.ms + c.duration.ms⟩

/-- `TimelineClip::split_at` (src/types/timeline.rs): fails at or outside
the open interval, otherwise partitions the clip at the position, with the
source range split at in_point + elapsed * speed. -/
def splitAt (c : TimelineClip) (position : TimePosition) (newId : Nat) :
    Option (TimelineClip × TimelineClip) :=
  if position.ms ≤ c.start.ms ∨ c.endPos.ms ≤ position.ms then none
  else
    let splitOffset := position.ms - c.start.ms
    let sourceSplit := c.inPoint.ms + u64OfRat ((splitOffset : ℚ) * c.speed)
    some
      ({ id := c.id
         start := c.start
         duration := ⟨splitOffset⟩
         sourceId := c.sourceId
         inPoint := c.inPoint
         outPoint := ⟨sourceSplit⟩
         speed := c.speed
         enabled := c.enabled
         name := c.name },
       { id := newId
         start := position
         duration := ⟨c.duration.ms - splitOffset⟩
         sourceId := c.sourceId
         inPoint := ⟨sourceSplit⟩
         outPoint := c.outPoint
         speed := c.speed
         enabled := c.enabled
         name := c.name })

end TimelineClip

/-- Timeline track (src/types/timeline.rs, struct TimelineTrack). -/
structure TimelineTrack where
  id        : Nat
  name      : String
  trackType : TrackType
  index     : Nat
  enabled   : Bool
  locked    : Bool
  muted     : Bool
  solo      : Bool
  height    : Nat
  clips     : List TimelineClip
deriving DecidableEq, Repr

namespace TimelineTrack

/-- `TimelineTrack::new` (src/types/timeline.rs). -/
def new (id : Nat) (name : String) (trackType : TrackType) (index : Nat) :
    TimelineTrack :=
  { id := id
    name := name
    trackType := trackType
    index := index
    enabled := true
    locked := false
    muted := false
    solo := false
    height := 64
    clips := [] }

/-- `TimelineTrack::add_clip` (src/types/timeline.rs): push, then stable
sort by start time (Rust `sort_by` is stable; `List.mergeSort` is the
stable sort here). -/
def addClip (t : TimelineTrack) (clip : TimelineClip) : TimelineTrack :=
  { t with
    clips := (t.clips ++ [clip]).mergeSort (fun a b => decide (a.start.ms ≤ b.start.ms)) }

/-- `TimelineTrack::remove_clip` (src/types/timeline.rs): removes the
first clip with the id, returning it. -/
def removeClip (t : TimelineTrack) (clipId : Nat) : TimelineTrack × Option TimelineClip :=
  match t.clips.findIdx? (fun c => decide (c.id = clipId)) with
  | some pos => ({ t with clips := t.clips.eraseIdx pos }, t.clips[pos]?)
  | none => (t, none)

/-- `TimelineTrack::is_range_available` (src/types/timeline.rs): true when
no existing clip intersects the candidate [start, end) range. -/
def isRangeAvailable (t : TimelineTrack) (start endT : TimePosition) : Bool :=
  !(t.clips.any fun c =>
    decide (start.ms < c.endPos.ms) && decide (endT.ms > c.start.ms))

end TimelineTrack

/-- Pairwise non-intersection of clip [start, end) spans: the no-overlap
property of the specification. -/
def NoClipOverlap (l : List TimelineClip) : Prop :=
  l.Pairwise (fun a b => ¬(a.start.ms < b.endPos.ms ∧ b.start.ms < a.endPos.ms))

/-- A clip-level editing step on one track: a guarded add (the caller
checks `is_range_available` first, per the specification's intent), or a
split that replaces a clip by its two halves (`remove_clip` followed by
`add_clip` of both parts of `split_at`). -/
inductive TrackOp where
  | add (clip : TimelineClip)
  | split (clipId : Nat) (position : TimePosition) (newId : Nat)

/-- Applies one guarded editing step to a track; steps whose guard or
lookup fails leave the track unchanged. -/
def applyTrackOp (t : TimelineTrack) : TrackOp → TimelineTrack
  | .add clip =>
      if t.isRangeAvailable clip.start clip.endPos then t.addClip clip else t
  | .split clipId position newId =>
      match t.clips.find? (fun c => decide (c.id = clipId)) with
      | none => t
      | some c =>
          match c.splitAt position newId with
          | none => t
          | some (f, s) => (((t.removeClip clipId).1.addClip f).addClip s)

/-- Concrete clip for exercising `split_at`: span [10, 110), source range
[0, 100), unit speed. -/
def splitSampleClip : TimelineClip := TimelineClip.new 1 9 ⟨10⟩ ⟨100⟩

/-- First half of splitting `splitSampleClip` at t = 30. -/
def splitSampleFirst : TimelineClip :=
  { id := 1, start := ⟨10⟩, duration := ⟨20⟩, sourceId := 9, inPoint := ⟨0⟩,
    outPoint := ⟨20⟩, speed := 1, enabled := true, name := "" }

/-- Second half of splitting `splitSampleClip` at t = 30. -/
def splitSampleSecond : TimelineClip :=
  { id := 2, start := ⟨30⟩, duration := ⟨80⟩, sourceId := 9, inPoint := ⟨20⟩,
    outPoint := ⟨100⟩, speed := 1, enabled := true, name := "" }

/-- Concrete clip spanning [0, 10). -/
def overlapSampleClipA : TimelineClip := TimelineClip.new 1 9 ⟨0⟩ ⟨10⟩

/-- Concrete clip spanning [5, 15): intersects `overlapSampleClipA`. -/
def overlapSampleClipB : TimelineClip := TimelineClip.new 2 9 ⟨5⟩ ⟨10⟩

/-! ## Transitions (src/implementation/transitions.rs)

Only the progress state machine of `Transition::update` is claim-relevant;
the transition type, easing and parameter payloads are omitted.  The f64
progress becomes a rational number: `update` only forms the quotient of
two u64 millisecond counts and clamps it. -/

/-- The progress-relevant fields of `Transition`
(src/implementation/transitions.rs, struct Transition). -/
structure Transition where
  id       : Nat
  duration : TimePosition
  progress : ℚ
  enabled  : Bool
deriving DecidableEq, Repr

/-- Rust `f64::clamp` on rationals, for `Transition::update`. -/
def qclamp (x lo hi : ℚ) : ℚ :=
  if x < lo then lo else if hi < x then hi else x

/-- `Transition::update` (src/implementation/transitions.rs): zero
duration pins progress to 1; otherwise progress is the saturating elapsed
time over the duration, clamped to [0, 1]. -/
def Transition.update (tr : Transition) (currentTime startTime : TimePosition) :
    Transition :=
  if tr.duration.ms = 0 then { tr with progress := 1 }
  else
    let elapsed := currentTime.ms - startTime.ms
    { tr with progress := qclamp ((elapsed : ℚ) / (tr.duration.ms : ℚ)) 0 1 }

/-! ## Export queue (src/implementation/export_pipeline/{queue,job,formats}.rs)

`ExportJob` keeps the queue-relevant state: the settings snapshot is an
opaque-to-the-queue value modeled as a Nat token (the queue only clones
it), the progress record is represented by its status and total frame
count (the only progress fields the queue reads), and the wall-clock
timestamps are out of scope.  Queue mutation becomes explicit state
passing; fallible operations return `Except String` with the source's
error messages. -/

/-- `ExportStatus` (src/implementation/export_pipeline/formats.rs). -/
inductive ExportStatus where
  | queued
  | preparing
  | firstPass
  | secondPass
  | encoding
  | finalizing
  | completed
  | failed
  | cancelled
  | paused
deriving DecidableEq, Repr

/-- The active statuses of `ExportQueue::active_jobs`
(src/implementation/export_pipeline/queue.rs). -/
def isActiveStatus (s : ExportStatus) : Bool :=
  match s with
  | .preparing | .firstPass | .secondPass | .encoding | .finalizing => true
  | _ => false

/-- An export job (src/implementation/export_pipeline/job.rs,
struct ExportJob). -/
structure ExportJob where
  id          : Nat
  projectId   : Nat
  settings    : Nat
  totalFrames : Nat
  status      : ExportStatus
  priority    : Int
deriving DecidableEq, Repr

/-- `ExportProgress::is_complete`
(src/implementation/export_pipeline/job.rs). -/
def ExportJob.isComplete (j : ExportJob) : Bool :=
  match j.status with
  | .completed | .failed | .cancelled => true
  | _ => false

/-- The export queue state (src/implementation/export_pipeline/queue.rs,
struct ExportQueue). -/
structure ExportQueue where
  jobs          : List ExportJob
  nextId        : Nat
  current       : Option Nat
  maxConcurrent : Nat
  activeCount   : Nat
deriving DecidableEq, Repr

namespace ExportQueue

/-- `ExportQueue::new` (src/implementation/export_pipeline/queue.rs). -/
def new : ExportQueue :=
  { jobs := [], nextId := 1, current := none, maxConcurrent := 1, activeCount := 0 }

/-- `ExportQueue::add_job`: allocates the next id and pushes a fresh
Queued job (priority 0, per `ExportJob::new`). -/
def addJob (q : ExportQueue) (projectId settings totalFrames : Nat) :
    ExportQueue × Nat :=
  let id := q.nextId
  ({ q with
      jobs := q.jobs ++
        [{ id := id, projectId := projectId, settings := settings,
           totalFrames := totalFrames, status := .queued, priority := 0 }]
      nextId := q.nextId + 1 }, id)

/-- `ExportQueue::get_job`: first job with the id. -/
def getJob (q : ExportQueue) (id : Nat) : Option ExportJob :=
  q.jobs.find? (fun j => decide (j.id = id))

/-- In-place mutation through `ExportQueue::get_job_mut`: applies f to the
first job with the id, leaving the rest unchanged. -/
def modifyJob : List ExportJob → Nat → (ExportJob → ExportJob) → List ExportJob
  | [], _, _ => []
  | j :: js, id, f => if j.id = id then f j :: js else j :: modifyJob js id f

/-- `ExportQueue::queued_jobs`: Queued jobs, stably sorted by descending
priority (`sort_by_key` on `Reverse(priority)` is a stable ascending sort;
`List.mergeSort` is stable). -/
def queuedJobs (q : ExportQueue) : List ExportJob :=
  (q.jobs.filter (fun j => decide (j.status = .queued))).mergeSort
    (fun a b => decide (b.priority ≤ a.priority))

/-- `ExportQueue::active_jobs`: jobs in Preparing / FirstPass /
SecondPass / Encoding / Finalizing state. -/
def activeJobs (q : ExportQueue) : List ExportJob :=
  q.jobs.filter (fun j => isActiveStatus j.status)

/-- `ExportQueue::start_next`: refuses at the concurrency cap, otherwise
starts the head of the priority-sorted queued list (`ExportJob::start`
sets the status to Preparing). -/
def startNext (q : ExportQueue) : ExportQueue × Option Nat :=
  if q.maxConcurrent ≤ q.activeCount then (q, none)
  else
    match (queuedJobs q).head? with
    | none => (q, none)
    | some j =>
        match q.getJob j.id with
        | some _ =>
            ({ q with
                jobs := modifyJob q.jobs j.id (fun k => { k with status := .preparing })
                current := some j.id
                activeCount := q.activeCount + 1 }, some j.id)
        | none => (q, none)

/-- `ExportQueue::set_max_concurrent`: floors the cap at 1. -/
def setMaxConcurrent (q : ExportQueue) (m : Nat) : ExportQueue :=
  { q with maxConcurrent := max m 1 }

/-- `ExportQueue::cancel_job`: errors on missing or already complete jobs;
otherwise cancels the job, and releases the current slot when it was the
current job (`saturating_sub` becomes Nat subtraction). -/
def cancelJob (q : ExportQueue) (id : Nat) : ExportQueue × Except String Unit :=
  match q.getJob id with
  | none => (q, .error "Job not found")
  | some j =>
      if j.isComplete then (q, .error "Cannot cancel completed job")
      else
        let q' :=
          { q with jobs := modifyJob q.jobs id (fun k => { k with status := .cancelled }) }
        if q'.current = some id then
          ({ q' with current := none, activeCount := q'.activeCount - 1 }, .ok ())
        else (q', .ok ())

/-- `ExportQueue::remove_job`: refuses to remove jobs that are neither
complete nor Queued (i.e. active or paused); otherwise removes the first
job with the id. -/
def removeJob (q : ExportQueue) (id : Nat) : ExportQueue × Bool :=
  match q.jobs.findIdx? (fun j => decide (j.id = id)) with
  | some pos =>
      match q.jobs[pos]? with
      | some j =>
          if j.isComplete = false ∧ j.status ≠ ExportStatus.queued then (q, false)
          else ({ q with jobs := q.jobs.eraseIdx pos }, true)
      | none => (q, false)
  | none => (q, false)

/-- `ExportQueue::retry_job`: only Failed or Cancelled jobs can be
retried; success clones the settings, total frame count and project id
into a brand-new job via `add_job`. -/
def retryJob (q : ExportQueue) (id : Nat) : ExportQueue × Except String Nat :=
  match q.getJob id with
  | none => (q, .error "Job not found")
  | some j =>
      if j.status = ExportStatus.failed ∨ j.status = ExportStatus.cancelled then
        let r := q.addJob j.projectId j.settings j.totalFrames
        (r.1, .ok r.2)
      else (q, .error "Can only retry failed/cancelled jobs")

/-- `ExportQueue::clear_completed`. -/
def clearCompleted (q : ExportQueue) : ExportQueue :=
  { q with jobs := q.jobs.filter (fun j => decide (¬ j.status = ExportStatus.completed)) }

/-- `ExportQueue::clear_failed`: drops Failed and Cancelled jobs. -/
def clearFailed (q : ExportQueue) : ExportQueue :=
  { q with
    jobs := q.jobs.filter
      (fun j => decide (¬(j.status = ExportStatus.failed ∨
        j.status = ExportStatus.cancelled))) }

end ExportQueue

/-- Concrete queued job with id 1. -/
def cexJob1 : ExportJob :=
  { id := 1, projectId := 0, settings := 0, totalFrames := 0,
    status := .queued, priority := 0 }

/-- Concrete queued job with id 2. -/
def cexJob2 : ExportJob :=
  { id := 2, projectId := 0, settings := 0, totalFrames := 0,
    status := .queued, priority := 0 }

/-- The job `cexJob1` after `start` (Preparing). -/
def cexJob1p : ExportJob :=
  { id := 1, projectId := 0, settings := 0, totalFrames := 0,
    status := .preparing, priority := 0 }

/-- The job `cexJob2` after `start` (Preparing). -/
def cexJob2p : ExportJob :=
  { id := 2, projectId := 0, settings := 0, totalFrames := 0,
    status := .preparing, priority := 0 }

/-- Concrete queue holding the two queued jobs, cap 2, nothing active. -/
def twoJobQueue : ExportQueue :=
  { jobs := [cexJob1, cexJob2], nextId := 3, current := none,
    maxConcurrent := 2, activeCount := 0 }

/-- `twoJobQueue` after starting job 1. -/
def twoJobQueueS1 : ExportQueue :=
  { jobs := [cexJob1p, cexJob2], nextId := 3, current := some 1,
    maxConcurrent := 2, activeCount := 1 }

/-- `twoJobQueueS1` after starting job 2. -/
def twoJobQueueS2 : ExportQueue :=
  { jobs := [cexJob1p, cexJob2p], nextId := 3, current := some 2,
    maxConcurrent := 2, activeCount := 2 }

/-- Concrete empty queue whose active counter has reached the cap. -/
def satQueue : ExportQueue :=
  { jobs := [], nextId := 5, current := none, maxConcurrent := 1, activeCount := 1 }

/-- Queue states reachable from `ExportQueue::new` through the queue
operations of the claim, with each `set_max_concurrent` call requesting a
cap at least as large as the number of currently active jobs (the
amendment's guard). -/
inductive QueueReachable : ExportQueue → Prop where
  | init : QueueReachable ExportQueue.new
  | addJob (q : ExportQueue) (p st tf : Nat) :
      QueueReachable q → QueueReachable (q.addJob p st tf).1
  | startNext (q : ExportQueue) :
      QueueReachable q → QueueReachable q.startNext.1
  | cancelJob (q : ExportQueue) (id : Nat) :
      QueueReachable q → QueueReachable (q.cancelJob id).1
  | removeJob (q : ExportQueue) (id : Nat) :
      QueueReachable q → QueueReachable (q.removeJob id).1
  | retryJob (q : ExportQueue) (id : Nat) :
      QueueReachable q → QueueReachable (q.retryJob id).1
  | clearCompleted (q : ExportQueue) :
      QueueReachable q → QueueReachable q.clearCompleted
  | clearFailed (q : ExportQueue) :
      QueueReachable q → QueueReachable q.clearFailed
  | setMaxConcurrent (q : ExportQueue) (m : Nat) :
      QueueReachable q → q.activeJobs.length ≤ max m 1 →
      QueueReachable (q.setMaxConcurrent m)

/-- The inductive invariant of the export queue: job ids are distinct and
below the id counter, the current job (when set) exists and is active, and
the number of active-status jobs is bounded by both the active counter and
the concurrency cap. -/
def QueueInv (q : ExportQueue) : Prop :=
  (q.jobs.map (fun j => j.id)).Nodup ∧
    (∀ j ∈ q.jobs, j.id < q.nextId) ∧
    (∀ id, q.current = some id →
      ∃ j ∈ q.jobs, j.id = id ∧ isActiveStatus j.status = true) ∧
    q.activeJobs.length ≤ q.activeCount ∧
    q.activeJobs.length ≤ q.maxConcurrent

end EssentiaSpec

namespace EssentiaSpec

/-! ## Theorems -/

namespace EvlfHeader

theorem readU32_u32le (v : Nat) (hv : v < 2 ^ 32) : readU32 (u32le v) 0 = v := by
  show v % 2 ^ 8 + 2 ^ 8 * (v / 2 ^ 8 % 2 ^ 8) + 2 ^ 16 * (v / 2 ^ 16 % 2 ^ 8) +
      2 ^ 24 * (v / 2 ^ 24 % 2 ^ 8) = v
  omega

theorem readU64_u64le (v : Nat) (hv : v < 2 ^ 64) : readU64 (u64le v) 0 = v := by
  show v % 2 ^ 8 + 2 ^ 8 * (v / 2 ^ 8 % 2 ^ 8) + 2 ^ 16 * (v / 2 ^ 16 % 2 ^ 8) +
      2 ^ 24 * (v / 2 ^ 24 % 2 ^ 8) + 2 ^ 32 * (v / 2 ^ 32 % 2 ^ 8) +
      2 ^ 40 * (v / 2 ^ 40 % 2 ^ 8) + 2 ^ 48 * (v / 2 ^ 48 % 2 ^ 8) +
      2 ^ 56 * (v / 2 ^ 56 % 2 ^ 8) = v
  omega

theorem readU32_u32le_append (v : Nat) (rest : List Nat) (hv : v < 2 ^ 32) :
    readU32 (u32le v ++ rest) 0 = v := by
  show v % 2 ^ 8 + 2 ^ 8 * (v / 2 ^ 8 % 2 ^ 8) + 2 ^ 16 * (v / 2 ^ 16 % 2 ^ 8) +
      2 ^ 24 * (v / 2 ^ 24 % 2 ^ 8) = v
  omega

theorem readU64_u64le_append (v : Nat) (rest : List Nat) (hv : v < 2 ^ 64) :
    readU64 (u64le v ++ rest) 0 = v := by
  show v % 2 ^ 8 + 2 ^ 8 * (v / 2 ^ 8 % 2 ^ 8) + 2 ^ 16 * (v / 2 ^ 16 % 2 ^ 8) +
      2 ^ 24 * (v / 2 ^ 24 % 2 ^ 8) + 2 ^ 32 * (v / 2 ^ 32 % 2 ^ 8) +
      2 ^ 40 * (v / 2 ^ 40 % 2 ^ 8) + 2 ^ 48 * (v / 2 ^ 48 % 2 ^ 8) +
      2 ^ 56 * (v / 2 ^ 56 % 2 ^ 8) = v
  omega

theorem readU32_skip4 (x : Nat) (rest : List Nat) (off : Nat) :
    readU32 (u32le x ++ rest) (4 + off) = readU32 rest off := by
  have hl : (u32le x).length = 4 := rfl
  unfold readU32
  rw [List.getD_append_right _ _ _ _ (by rw [hl]; omega),
    List.getD_append_right _ _ _ _ (by rw [hl]; omega),
    List.getD_append_right _ _ _ _ (by rw [hl]; omega),
    List.getD_append_right _ _ _ _ (by rw [hl]; omega), hl]
  have e0 : 4 + off - 4 = off := by omega
  have e1 : 4 + off + 1 - 4 = off + 1 := by omega
  have e2 : 4 + off + 2 - 4 = off + 2 := by omega
  have e3 : 4 + off + 3 - 4 = off + 3 := by omega
  rw [e0, e1, e2, e3]

theorem readU32_skip8 (x : Nat) (rest : List Nat) (off : Nat) :
    readU32 (u64le x ++ rest) (8 + off) = readU32 rest off := by
  have hl : (u64le x).length = 8 := rfl
  unfold readU32
  rw [List.getD_append_right _ _ _ _ (by rw [hl]; omega),
    List.getD_append_right _ _ _ _ (by rw [hl]; omega),
    List.getD_append_right _ _ _ _ (by rw [hl]; omega),
    List.getD_append_right _ _ _ _ (by rw [hl]; omega), hl]
  have e0 : 8 + off - 8 = off := by omega
  have e1 : 8 + off + 1 - 8 = off + 1 := by omega
  have e2 : 8 + off + 2 - 8 = off + 2 := by omega
  have e3 : 8 + off + 3 - 8 = off + 3 := by omega
  rw [e0, e1, e2, e3]

theorem readU64_skip4 (x : Nat) (rest : List Nat) (off : Nat) :
    readU64 (u32le x ++ rest) (4 + off) = readU64 rest off := by
  have hl : (u32le x).length = 4 := rfl
  unfold readU64
  rw [List.getD_append_right _ _ _ _ (by rw [hl]; omega),
    List.getD_append_right _ _ _ _ (by rw [hl]; omega),
    List.getD_append_right _ _ _ _ (by rw [hl]; omega),
    List.getD_append_right _ _ _ _ (by rw [hl]; omega),
    List.getD_append_right _ _ _ _ (by rw [hl]; omega),
    List.getD_append_right _ _ _ _ (by rw [hl]; omega),
    List.getD_append_right _ _ _ _ (by rw [hl]; omega),
    List.getD_append_right _ _ _ _ (by rw [hl]; omega), hl]
  have e0 : 4 + off - 4 = off := by omega
  have e1 : 4 + off + 1 - 4 = off + 1 := by omega
  have e2 : 4 + off + 2 - 4 = off + 2 := by omega
  have e3 : 4 + off + 3 - 4 = off + 3 := by omega
  have e4 : 4 + off + 4 - 4 = off + 4 := by omega
  have e5 : 4 + off + 5 - 4 = off + 5 := by omega
  have e6 : 4 + off + 6 - 4 = off + 6 := by omega
  have e7 : 4 + off + 7 - 4 = off + 7 := by omega
  rw [e0, e1, e2, e3, e4, e5, e6, e7]

theorem readU64_skip8 (x : Nat) (rest : List Nat) (off : Nat) :
    readU64 (u64le x ++ rest) (8 + off) = readU64 rest off := by
  have hl : (u64le x).length = 8 := rfl
  unfold readU64
  rw [List.getD_append_right _ _ _ _ (by rw [hl]; omega),
    List.getD_append_right _ _ _ _ (by rw [hl]; omega),
    List.getD_append_right _ _ _ _ (by rw [hl]; omega),
    List.getD_append_right _ _ _ _ (by rw [hl]; omega),
    List.getD_append_right _ _ _ _ (by rw [hl]; omega),
    List.getD_append_right _ _ _ _ (by rw [hl]; omega),
    List.getD_append_right _ _ _ _ (by rw [hl]; omega),
    List.getD_append_right _ _ _ _ (by rw [hl]; omega), hl]
  have e0 : 8 + off - 8 = off := by omega
  have e1 : 8 + off + 1 - 8 = off + 1 := by omega
  have e2 : 8 + off + 2 - 8 = off + 2 := by omega
  have e3 : 8 + off + 3 - 8 = off + 3 := by omega
  have e4 : 8 + off + 4 - 8 = off + 4 := by omega
  have e5 : 8 + off + 5 - 8 = off + 5 := by omega
  have e6 : 8 + off + 6 - 8 = off + 6 := by omega
  have e7 : 8 + off + 7 - 8 = off + 7 := by omega
  rw [e0, e1, e2, e3, e4, e5, e6, e7]

theorem toBytes_length (h : EvlfHeader) : (toBytes h).length = 64 := by
  simp [toBytes, u32le, u64le]

end EvlfHeader

/-- C1: for every well-formed `EvlfHeader` h, `from_bytes (to_bytes h)`
returns `some` of a header equal to h field-for-field, and `to_bytes`
produces exactly 64 bytes, each a genuine byte value. -/
theorem evlf_header_roundtrip (h : EvlfHeader) (hw : h.Wf) :
    EvlfHeader.fromBytes (EvlfHeader.toBytes h) = some h ∧
      (EvlfHeader.toBytes h).length = 64 ∧
      ∀ b ∈ EvlfHeader.toBytes h, b < 256 := by
  obtain ⟨h1, h2, h3, h4, h5, h6, h7, h8, h9, h10, h11, h12⟩ := hw
  refine ⟨?_, EvlfHeader.toBytes_length h, ?_⟩
  · have hlen : ¬ (EvlfHeader.toBytes h).length < 64 := by
      rw [EvlfHeader.toBytes_length]; omega
    unfold EvlfHeader.fromBytes EVLF_HEADER_SIZE
    rw [if_neg hlen]
    simp only [Option.some.injEq]
    unfold EvlfHeader.toBytes
    simp only [List.append_assoc]
    ext
    · exact EvlfHeader.readU32_u32le_append _ _ h1
    · rw [show (4 : Nat) = 4 + 0 from rfl, EvlfHeader.readU32_skip4]
      exact EvlfHeader.readU32_u32le_append _ _ h2
    · rw [show (8 : Nat) = 4 + (4 + 0) from rfl, EvlfHeader.readU32_skip4,
        EvlfHeader.readU32_skip4]
      exact EvlfHeader.readU32_u32le_append _ _ h3
    · rw [show (12 : Nat) = 4 + (4 + (4 + 0)) from rfl, EvlfHeader.readU32_skip4,
        EvlfHeader.readU32_skip4, EvlfHeader.readU32_skip4]
      exact EvlfHeader.readU32_u32le_append _ _ h4
    · rw [show (16 : Nat) = 4 + (4 + (4 + (4 + 0))) from rfl, EvlfHeader.readU64_skip4,
        EvlfHeader.readU64_skip4, EvlfHeader.readU64_skip4, EvlfHeader.readU64_skip4]
      exact EvlfHeader.readU64_u64le_append _ _ h5
    · rw [show (24 : Nat) = 4 + (4 + (4 + (4 + (8 + 0)))) from rfl,
        EvlfHeader.readU64_skip4, EvlfHeader.readU64_skip4, EvlfHeader.readU64_skip4,
        EvlfHeader.readU64_skip4, EvlfHeader.readU64_skip8]
      exact EvlfHeader.readU64_u64le_append _ _ h6
    · rw [show (32 : Nat) = 4 + (4 + (4 + (4 + (8 + (8 + 0))))) from rfl,
        EvlfHeader.readU32_skip4, EvlfHeader.readU32_skip4, EvlfHeader.readU32_skip4,
        EvlfHeader.readU32_skip4, EvlfHeader.readU32_skip8, EvlfHeader.readU32_skip8]
      exact EvlfHeader.readU32_u32le_append _ _ h7
    · rw [show (36 : Nat) = 4 + (4 + (4 + (4 + (8 + (8 + (4 + 0)))))) from rfl,
        EvlfHeader.readU32_skip4, EvlfHeader.readU32_skip4, EvlfHeader.readU32_skip4,
        EvlfHeader.readU32_skip4, EvlfHeader.readU32_skip8, EvlfHeader.readU32_skip8,
        EvlfHeader.readU32_skip4]
      exact EvlfHeader.readU32_u32le_append _ _ h8
    · rw [show (40 : Nat) = 4 + (4 + (4 + (4 + (8 + (8 + (4 + (4 + 0))))))) from rfl,
        EvlfHeader.readU32_skip4, EvlfHeader.readU32_skip4, EvlfHeader.readU32_skip4,
        EvlfHeader.readU32_skip4, EvlfHeader.readU32_skip8, EvlfHeader.readU32_skip8,
        EvlfHeader.readU32_skip4, EvlfHeader.readU32_skip4]
      exact EvlfHeader.readU32_u32le_append _ _ h9
    · rw [show (44 : Nat) = 4 + (4 + (4 + (4 + (8 + (8 + (4 + (4 + (4 + 0)))))))) from rfl,
        EvlfHeader.readU32_skip4, EvlfHeader.readU32_skip4, EvlfHeader.readU32_skip4,
        EvlfHeader.readU32_skip4, EvlfHeader.readU32_skip8, EvlfHeader.readU32_skip8,
        EvlfHeader.readU32_skip4, EvlfHeader.readU32_skip4, EvlfHeader.readU32_skip4]
      exact EvlfHeader.readU32_u32le_append _ _ h10
    · rw [show (48 : Nat) = 4 + (4 + (4 + (4 + (8 + (8 + (4 + (4 + (4 + (4 + 0)))))))))
          from rfl,
        EvlfHeader.readU64_skip4, EvlfHeader.readU64_skip4, EvlfHeader.readU64_skip4,
        EvlfHeader.readU64_skip4, EvlfHeader.readU64_skip8, EvlfHeader.readU64_skip8,
        EvlfHeader.readU64_skip4, EvlfHeader.readU64_skip4, EvlfHeader.readU64_skip4,
        EvlfHeader.readU64_skip4]
      exact EvlfHeader.readU64_u64le_append _ _ h11
    · rw [show (56 : Nat) =
            4 + (4 + (4 + (4 + (8 + (8 + (4 + (4 + (4 + (4 + (8 + 0)))))))))) from rfl,
        EvlfHeader.readU64_skip4, EvlfHeader.readU64_skip4, EvlfHeader.readU64_skip4,
        EvlfHeader.readU64_skip4, EvlfHeader.readU64_skip8, EvlfHeader.readU64_skip8,
        EvlfHeader.readU64_skip4, EvlfHeader.readU64_skip4, EvlfHeader.readU64_skip4,
        EvlfHeader.readU64_skip4, EvlfHeader.readU64_skip8]
      rw [show EvlfHeader.readU64 (EvlfHeader.u64le h.indexOffset) 0 =
          EvlfHeader.readU64 (EvlfHeader.u64le h.indexOffset ++ []) 0 by
        rw [List.append_nil]]
      exact EvlfHeader.readU64_u64le_append _ _ h12
  · intro b hb
    simp only [EvlfHeader.toBytes, EvlfHeader.u32le, EvlfHeader.u64le,
      List.mem_append, List.mem_cons, List.not_mem_nil, or_false] at hb
    omega

/-- Witness for C1 at the header built by `EvlfHeader::new(1920, 1080, 30, 1)`. -/
theorem evlf_header_roundtrip_witness :
    (EvlfHeader.new 1920 1080 30 1).Wf ∧
      EvlfHeader.fromBytes (EvlfHeader.toBytes (EvlfHeader.new 1920 1080 30 1)) =
        some (EvlfHeader.new 1920 1080 30 1) :=
  ⟨by decide, (evlf_header_roundtrip _ (by decide)).1⟩

/-- C8: `from_bytes` returns `none` exactly on inputs shorter than 64
bytes; on longer input it succeeds regardless of the stored magic value
and depends only on the first 64 bytes; `is_valid` holds exactly when the
decoded magic equals the constant 0x45564C46. -/
theorem evlf_from_bytes_total (b : List Nat) :
    (EvlfHeader.fromBytes b = none ↔ b.length < 64) ∧
      (64 ≤ b.length →
        EvlfHeader.fromBytes b = EvlfHeader.fromBytes (b.take 64) ∧
          ∃ h : EvlfHeader, EvlfHeader.fromBytes b = some h) ∧
      ∀ h : EvlfHeader, h.isValid = true ↔ h.magic = 0x45564C46 := by
  have hget : ∀ i : Nat, i < 64 → (b.take 64).getD i 0 = b.getD i 0 := by
    intro i hi
    rw [List.getD_eq_getElem?_getD, List.getD_eq_getElem?_getD, List.getElem?_take,
      if_pos hi]
  have r32 : ∀ off : Nat, off + 4 ≤ 64 →
      EvlfHeader.readU32 (b.take 64) off = EvlfHeader.readU32 b off := by
    intro off hoff
    unfold EvlfHeader.readU32
    rw [hget off (by omega), hget (off + 1) (by omega), hget (off + 2) (by omega),
      hget (off + 3) (by omega)]
  have r64 : ∀ off : Nat, off + 8 ≤ 64 →
      EvlfHeader.readU64 (b.take 64) off = EvlfHeader.readU64 b off := by
    intro off hoff
    unfold EvlfHeader.readU64
    rw [hget off (by omega), hget (off + 1) (by omega), hget (off + 2) (by omega),
      hget (off + 3) (by omega), hget (off + 4) (by omega), hget (off + 5) (by omega),
      hget (off + 6) (by omega), hget (off + 7) (by omega)]
  have hnone : EvlfHeader.fromBytes b = none ↔ b.length < 64 := by
    unfold EvlfHeader.fromBytes EVLF_HEADER_SIZE
    split
    · simp; omega
    · simp; omega
  refine ⟨hnone, ?_, ?_⟩
  · intro hlen
    constructor
    · unfold EvlfHeader.fromBytes EVLF_HEADER_SIZE
      have hlt : ¬ b.length < 64 := by omega
      have hlt' : ¬ (b.take 64).length < 64 := by
        simp [List.length_take]; omega
      rw [if_neg hlt, if_neg hlt']
      simp only [Option.some.injEq]
      ext <;>
        first
          | exact (r32 _ (by omega)).symm
          | exact (r64 _ (by omega)).symm
    · cases hfb : EvlfHeader.fromBytes b with
      | none => exact absurd (hnone.mp hfb) (by omega)
      | some hdr => exact ⟨hdr, rfl⟩
  · intro h
    unfold EvlfHeader.isValid EVLF_MAGIC
    simp

/-- Witness for C8 at a concrete 64-byte input with a malformed magic. -/
theorem evlf_from_bytes_total_witness :
    64 ≤ (List.replicate 64 7).length ∧
      ∃ h : EvlfHeader, EvlfHeader.fromBytes (List.replicate 64 7) = some h :=
  ⟨by decide, ((evlf_from_bytes_total (List.replicate 64 7)).2.1 (by decide)).2⟩

/-! ### Keyframe ordering (claim C4) -/

theorem pairwise_insertIdx {α : Type*} {R : α → α → Prop} (l : List α) (x : α) (n : Nat)
    (hn : n ≤ l.length) (hl : l.Pairwise R)
    (hb : ∀ j (hj : j < l.length), j < n → R (l.get ⟨j, hj⟩) x)
    (ha : ∀ j (hj : j < l.length), n ≤ j → R x (l.get ⟨j, hj⟩)) :
    (l.insertIdx n x).Pairwise R := by
  rw [List.pairwise_iff_getElem] at hl ⊢
  have hlen : (l.insertIdx n x).length = l.length + 1 := List.length_insertIdx n l hn
  intro i j hi hj hij
  rcases lt_trichotomy j n with hjn | hjn | hjn
  · rw [List.getElem_insertIdx_of_lt l x n i (by omega) (by omega),
      List.getElem_insertIdx_of_lt l x n j hjn (by omega)]
    exact hl i j (by omega) (by omega) hij
  · subst hjn
    rw [List.getElem_insertIdx_of_lt l x j i hij (by omega),
      List.getElem_insertIdx_self l x j (by omega)]
    exact hb i (by omega) hij
  · obtain ⟨k, rfl⟩ : ∃ k, j = n + k + 1 := ⟨j - n - 1, by omega⟩
    rw [List.getElem_insertIdx_add_succ l x n k (by omega)]
    rcases lt_trichotomy i n with hin | hin | hin
    · rw [List.getElem_insertIdx_of_lt l x n i hin (by omega)]
      exact hl i (n + k) (by omega) (by omega) (by omega)
    · subst hin
      rw [List.getElem_insertIdx_self l x i (by omega)]
      exact ha (i + k) (by omega) (by omega)
    · obtain ⟨m, rfl⟩ : ∃ m, i = n + m + 1 := ⟨i - n - 1, by omega⟩
      rw [List.getElem_insertIdx_add_succ l x n m (by omega)]
      exact hl (n + m) (n + k) (by omega) (by omega) (by omega)

theorem keyframesSorted_set (l : List Keyframe) (m : Nat) (k : Keyframe)
    (hm : m < l.length) (ht : (l.get ⟨m, hm⟩).time.ms = k.time.ms)
    (hl : KeyframesSorted l) : KeyframesSorted (l.set m k) := by
  unfold KeyframesSorted at hl ⊢
  rw [List.pairwise_iff_getElem] at hl ⊢
  intro i j hi hj hij
  rw [List.length_set] at hi hj
  rw [List.getElem_set, List.getElem_set]
  rcases eq_or_ne m i with hmi | hmi
  · subst hmi
    rw [if_pos rfl, if_neg (by omega)]
    have := hl m j hi hj hij
    simp only [List.get_eq_getElem] at ht
    omega
  · rw [if_neg hmi]
    rcases eq_or_ne m j with hmj | hmj
    · subst hmj
      rw [if_pos rfl]
      have := hl i m hi hj hij
      simp only [List.get_eq_getElem] at ht
      omega
    · rw [if_neg hmj]
      exact hl i j hi hj hij

theorem findIdx_eq_of {α : Type*} (l : List α) (p : α → Bool) (n : Nat)
    (hn : n ≤ l.length)
    (hfalse : ∀ j (hj : j < l.length), j < n → p (l.get ⟨j, hj⟩) = false)
    (htrue : ∀ hn' : n < l.length, p (l.get ⟨n, hn'⟩) = true) :
    l.findIdx p = n := by
  rcases lt_trichotomy (l.findIdx p) n with h | h | h
  · have hlt : l.findIdx p < l.length := by omega
    have := @List.findIdx_getElem _ p l hlt
    have hf := hfalse (l.findIdx p) hlt h
    simp only [List.get_eq_getElem] at hf
    rw [this] at hf
    exact absurd hf (by simp)
  · exact h
  · have hnl : n < l.length := lt_of_lt_of_le h (List.findIdx_le_length p)
    have := List.not_of_lt_findIdx h
    have ht := htrue hnl
    simp only [List.get_eq_getElem] at ht
    rw [this] at ht
    exact absurd ht (by simp)

/-- Preservation half of the sort invariant: `add_keyframe` keeps the
keyframe list strictly sorted by time. -/
theorem addKeyframe_sorted (tr : AnimationTrack) (time : TimePosition)
    (value : AnimatedValue) (h : KeyframesSorted tr.keyframes) :
    KeyframesSorted ((tr.addKeyframe time value).1).keyframes := by
  unfold AnimationTrack.addKeyframe
  have hpos := @List.findIdx_le_length _ (fun k => decide (time.ms < k.time.ms))
    tr.keyframes
  set l := tr.keyframes with hldef
  set pos := l.findIdx (fun k => decide (time.ms < k.time.ms)) with hposdef
  by_cases hc : 0 < pos ∧ (l.getD (pos - 1) (Keyframe.new time value)).time.ms = time.ms
  · rw [if_pos hc]
    have hm : pos - 1 < l.length := by omega
    refine keyframesSorted_set l (pos - 1) (Keyframe.new time value) hm ?_ h
    simp only [List.get_eq_getElem]
    rw [← List.getD_eq_getElem l (Keyframe.new time value) hm]
    exact hc.2
  · rw [if_neg hc]
    have hle : ∀ j (hj : j < l.length), j < pos → (l.get ⟨j, hj⟩).time.ms ≤ time.ms := by
      intro j hj hjp
      have := List.not_of_lt_findIdx
        (show j < l.findIdx (fun k => decide (time.ms < k.time.ms)) by omega)
      simp only [List.get_eq_getElem, decide_eq_false_iff_not, not_lt] at this ⊢
      exact this
    have hb : ∀ j (hj : j < l.length), j < pos → (l.get ⟨j, hj⟩).time.ms < time.ms := by
      intro j hj hjp
      rcases eq_or_ne j (pos - 1) with hj1 | hj1
      · subst hj1
        have hne : (l.get ⟨pos - 1, hj⟩).time.ms ≠ time.ms := by
          intro heq
          exact hc ⟨by omega, by rw [List.getD_eq_getElem l _ hj]; exact heq⟩
        exact lt_of_le_of_ne (hle _ hj hjp) hne
      · have hm : pos - 1 < l.length := by omega
        have hlt : (l.get ⟨j, hj⟩).time.ms < (l.get ⟨pos - 1, hm⟩).time.ms := by
          have := (List.pairwise_iff_getElem.mp h) j (pos - 1) hj hm (by omega)
          simpa using this
        exact lt_of_lt_of_le hlt (hle _ hm (by omega))
    have ha : ∀ j (hj : j < l.length), pos ≤ j → time.ms < (l.get ⟨j, hj⟩).time.ms := by
      intro j hj hjp
      have hposlt : pos < l.length := by omega
      have hfi := @List.findIdx_getElem _ (fun k => decide (time.ms < k.time.ms))
        l hposlt
      simp only [decide_eq_true_eq] at hfi
      rcases eq_or_ne j pos with rfl | hne
      · simpa using hfi
      · have hlt : (l.get ⟨pos, hposlt⟩).time.ms < (l.get ⟨j, hj⟩).time.ms := by
          have := (List.pairwise_iff_getElem.mp h) pos j hposlt hj (by omega)
          simpa using this
        exact lt_trans hfi hlt
    exact pairwise_insertIdx l (Keyframe.new time value) pos hpos h
      (fun j hj hjp => hb j hj hjp) (fun j hj hjp => ha j hj hjp)

/-- Replacement half of the sort invariant: adding at an existing
timestamp overwrites that keyframe in place, at its index, without
changing the length. -/
theorem addKeyframe_replace (tr : AnimationTrack) (time : TimePosition)
    (value : AnimatedValue) (hs : KeyframesSorted tr.keyframes)
    (i : Nat) (hi : i < tr.keyframes.length)
    (hmem : (tr.keyframes.get ⟨i, hi⟩).time.ms = time.ms) :
    (tr.addKeyframe time value).1.keyframes =
        tr.keyframes.set i (Keyframe.new time value) ∧
      (tr.addKeyframe time value).2 = i ∧
      (tr.addKeyframe time value).1.keyframes.length = tr.keyframes.length := by
  unfold AnimationTrack.addKeyframe
  have hsg := List.pairwise_iff_getElem.mp hs
  simp only [List.get_eq_getElem] at hmem
  have hfind : tr.keyframes.findIdx (fun k => decide (time.ms < k.time.ms)) = i + 1 := by
    refine findIdx_eq_of tr.keyframes _ (i + 1) (by omega) ?_ ?_
    · intro j hj hji
      simp only [List.get_eq_getElem, decide_eq_false_iff_not, not_lt]
      rcases eq_or_ne j i with rfl | hne
      · omega
      · have := hsg j i hj hi (by omega)
        omega
    · intro hn'
      simp only [List.get_eq_getElem, decide_eq_true_eq]
      have := hsg i (i + 1) hi hn' (by omega)
      omega
  rw [hfind]
  have hcond : 0 < i + 1 ∧
      (tr.keyframes.getD (i + 1 - 1) (Keyframe.new time value)).time.ms = time.ms := by
    refine ⟨by omega, ?_⟩
    have hidx : i + 1 - 1 = i := by omega
    rw [hidx, List.getD_eq_getElem tr.keyframes _ hi]
    exact hmem
  rw [if_pos hcond]
  refine ⟨by simp, by omega, by simp⟩

/-- C4: starting from a fresh track, any sequence of `add_keyframe` calls
(with arbitrary, possibly out-of-order and duplicate, times) leaves the
keyframe list strictly increasing by time with no duplicate timestamps;
adding at a time that already exists replaces that keyframe in place (at
its index) without increasing the keyframe count. -/
theorem add_keyframe_sort_invariant :
    (∀ (ops : List (TimePosition × AnimatedValue)) (id : Nat) (property : String)
        (dv : AnimatedValue),
      KeyframesSorted
        ((ops.foldl (fun tr op => (tr.addKeyframe op.1 op.2).1)
            (AnimationTrack.new id property dv)).keyframes)) ∧
      ∀ (tr : AnimationTrack) (time : TimePosition) (value : AnimatedValue),
        KeyframesSorted tr.keyframes →
        ∀ (i : Nat) (hi : i < tr.keyframes.length),
          (tr.keyframes.get ⟨i, hi⟩).time.ms = time.ms →
          (tr.addKeyframe time value).1.keyframes =
              tr.keyframes.set i (Keyframe.new time value) ∧
            (tr.addKeyframe time value).1.keyframes.length = tr.keyframes.length := by
  constructor
  · intro ops id property dv
    have aux : ∀ (ops : List (TimePosition × AnimatedValue)) (tr : AnimationTrack),
        KeyframesSorted tr.keyframes →
        KeyframesSorted
          ((ops.foldl (fun tr op => (tr.addKeyframe op.1 op.2).1) tr).keyframes) := by
      intro ops
      induction ops with
      | nil => intro tr h; exact h
      | cons op rest ih =>
          intro tr h
          exact ih _ (addKeyframe_sorted tr op.1 op.2 h)
    exact aux ops _ (by simp [AnimationTrack.new, KeyframesSorted])
  · intro tr time value hs i hi hmem
    obtain ⟨h1, _h2, h3⟩ := addKeyframe_replace tr time value hs i hi hmem
    exact ⟨h1, h3⟩

/-- Witness for C4: inserts (including a duplicate time) on concrete
tracks, with the replacement hypotheses discharged on a two-keyframe
track. -/
theorem add_keyframe_sort_invariant_witness :
    KeyframesSorted
        (([(⟨100⟩, AnimatedValue.bool true), (⟨50⟩, AnimatedValue.bool false),
            (⟨100⟩, AnimatedValue.bool false)].foldl
            (fun tr op => (tr.addKeyframe op.1 op.2).1)
          (AnimationTrack.new 1 "opacity" (AnimatedValue.bool false))).keyframes) ∧
      KeyframesSorted
          { AnimationTrack.new 1 "x" (AnimatedValue.bool false) with
            keyframes := [Keyframe.new ⟨5⟩ (AnimatedValue.bool false),
              Keyframe.new ⟨9⟩ (AnimatedValue.bool true)] }.keyframes ∧
        (({ AnimationTrack.new 1 "x" (AnimatedValue.bool false) with
              keyframes := [Keyframe.new ⟨5⟩ (AnimatedValue.bool false),
                Keyframe.new ⟨9⟩ (AnimatedValue.bool true)] }.addKeyframe ⟨5⟩
            (AnimatedValue.bool true)).1.keyframes =
            [Keyframe.new ⟨5⟩ (AnimatedValue.bool false),
              Keyframe.new ⟨9⟩ (AnimatedValue.bool true)].set 0
              (Keyframe.new ⟨5⟩ (AnimatedValue.bool true)) ∧
          ({ AnimationTrack.new 1 "x" (AnimatedValue.bool false) with
              keyframes := [Keyframe.new ⟨5⟩ (AnimatedValue.bool false),
                Keyframe.new ⟨9⟩ (AnimatedValue.bool true)] }.addKeyframe ⟨5⟩
            (AnimatedValue.bool true)).1.keyframes.length =
            [Keyframe.new ⟨5⟩ (AnimatedValue.bool false),
              Keyframe.new ⟨9⟩ (AnimatedValue.bool true)].length) :=
  ⟨add_keyframe_sort_invariant.1 _ 1 "opacity" (AnimatedValue.bool false),
    by
      refine ⟨?_, ?_⟩
      · unfold KeyframesSorted
        simp [Keyframe.new]
      · exact add_keyframe_sort_invariant.2 _ ⟨5⟩ (AnimatedValue.bool true)
          (by unfold KeyframesSorted; simp [Keyframe.new]) 0 (by simp) rfl⟩

/-! ### Track evaluation (claims C2, C10) -/

theorem findKeyframes_nil (tr : AnimationTrack) (time : TimePosition)
    (h : tr.keyframes = []) : tr.findKeyframes time = (none, none) := by
  unfold AnimationTrack.findKeyframes
  rw [h]
  rfl

theorem findKeyframes_before (tr : AnimationTrack) (time : TimePosition)
    (k0 : Keyframe) (ks : List Keyframe) (hl : tr.keyframes = k0 :: ks)
    (h : time.ms ≤ k0.time.ms) : tr.findKeyframes time = (none, some k0) := by
  unfold AnimationTrack.findKeyframes
  rw [hl, List.findIdx?_cons]
  simp only [List.isEmpty_cons, Bool.false_eq_true, if_false]
  rw [if_pos (by simpa using h)]
  rfl

theorem findKeyframes_after (tr : AnimationTrack) (time : TimePosition)
    (hs : KeyframesSorted tr.keyframes) (klast : Keyframe)
    (hlast : tr.keyframes.getLast? = some klast) (h : klast.time.ms < time.ms) :
    tr.findKeyframes time = (some klast, none) := by
  have hne : tr.keyframes ≠ [] := by
    intro hnil
    rw [hnil] at hlast
    simp at hlast
  have hidx : tr.keyframes.findIdx? (fun k => decide (time.ms ≤ k.time.ms)) = none := by
    rw [List.findIdx?_eq_none_iff]
    intro x hx
    simp only [decide_eq_false_iff_not, not_le]
    obtain ⟨j, hj, hxj⟩ := List.mem_iff_getElem.mp hx
    have hlen : 0 < tr.keyframes.length := List.length_pos.mpr hne
    have hkl : klast = tr.keyframes[tr.keyframes.length - 1] := by
      rw [List.getLast?_eq_getElem?] at hlast
      rw [List.getElem?_eq_getElem (by omega)] at hlast
      exact (Option.some.injEq _ _).mp hlast.symm
    rcases eq_or_ne j (tr.keyframes.length - 1) with rfl | hne'
    · rw [← hxj, ← hkl]
      exact h
    · have hpw := (List.pairwise_iff_getElem.mp hs) j (tr.keyframes.length - 1) hj
        (by omega) (by omega)
      rw [← hkl] at hpw
      rw [← hxj]
      omega
  unfold AnimationTrack.findKeyframes
  rw [hidx, hlast]
  rw [if_neg (by simpa [List.isEmpty_iff] using hne)]

theorem findKeyframes_bracket (tr : AnimationTrack) (time : TimePosition)
    (hs : KeyframesSorted tr.keyframes) (i : Nat) (kp kn : Keyframe)
    (hp : tr.keyframes[i]? = some kp) (hn : tr.keyframes[i + 1]? = some kn)
    (h1 : kp.time.ms < time.ms) (h2 : time.ms ≤ kn.time.ms) :
    tr.findKeyframes time = (some kp, some kn) := by
  have hi1 : i + 1 < tr.keyframes.length := by
    by_contra hcon
    rw [List.getElem?_eq_none (by omega)] at hn
    exact Option.noConfusion hn
  have hkp : tr.keyframes[i] = kp := by
    rw [List.getElem?_eq_getElem (by omega)] at hp
    exact (Option.some.injEq _ _).mp hp
  have hkn : tr.keyframes[i + 1] = kn := by
    rw [List.getElem?_eq_getElem hi1] at hn
    exact (Option.some.injEq _ _).mp hn
  have hidx : tr.keyframes.findIdx? (fun k => decide (time.ms ≤ k.time.ms)) =
      some (i + 1) := by
    rw [List.findIdx?_eq_some_iff_getElem]
    refine ⟨hi1, by simpa [hkn] using h2, ?_⟩
    intro j hj
    simp only [decide_eq_true_eq, not_le]
    rcases eq_or_ne j i with rfl | hne'
    · rw [hkp]; exact h1
    · have := (List.pairwise_iff_getElem.mp hs) j i (by omega) (by omega) (by omega)
      rw [hkp] at this
      omega
  unfold AnimationTrack.findKeyframes
  rw [hidx]
  rw [if_neg (by simp [List.isEmpty_iff]; intro hnil; rw [hnil] at hp; simp at hp)]
  show (tr.keyframes[i]?, tr.keyframes[i + 1]?) = (some kp, some kn)
  rw [hp, hn]

theorem fclamp_one : fclamp 1 0 1 = 1 := by
  unfold fclamp
  norm_num

theorem easing_at_one (k : InterpolationType) (hk : k ≠ InterpolationType.hold) :
    k.evaluate 1 = 1 := by
  cases k
  case hold => exact absurd rfl hk
  all_goals
    simp only [InterpolationType.evaluate, fclamp_one]
  case easeIn => norm_num
  case easeOut => norm_num
  case easeInOut => norm_num
  case cubicIn => norm_num
  case cubicOut => norm_num
  case cubicInOut => norm_num
  case exponentialIn =>
    rw [if_neg (by norm_num), show (10 : ℝ) * 1 - 10 = 0 by norm_num, Real.rpow_zero]
  case exponentialOut =>
    rw [if_pos]
    unfold f64Epsilon
    norm_num
  case bounce => norm_num
  case elastic =>
    rw [if_neg (by norm_num), if_pos]
    unfold f64Epsilon
    norm_num

theorem bezierComponent_one (p1 p2 : ℝ) : AnimationTrack.bezierComponent 1 0 p1 p2 1 = 1 := by
  unfold AnimationTrack.bezierComponent
  norm_num

theorem newtonStep_one (p1x p2x : ℝ) : AnimationTrack.newtonStep 1 p1x p2x 1 = 1 := by
  simp only [AnimationTrack.newtonStep, bezierComponent_one]
  split
  · rfl
  · rw [show (1 : ℝ) - 1 = 0 by norm_num, zero_div, sub_zero, fclamp_one]

theorem newtonIter_one (n : Nat) (p1x p2x : ℝ) :
    AnimationTrack.newtonIter n 1 p1x p2x 1 = 1 := by
  induction n with
  | zero => rfl
  | succ m ih =>
      unfold AnimationTrack.newtonIter
      rw [newtonStep_one]
      exact ih

theorem evaluateBezier_one (prev next : Keyframe) :
    AnimationTrack.evaluateBezier 1 prev next = 1 := by
  simp only [AnimationTrack.evaluateBezier]
  rw [newtonIter_one, bezierComponent_one]

theorem lerp_float_one (x y : ℝ) :
    (AnimatedValue.float x).lerp (AnimatedValue.float y) 1 = AnimatedValue.float y := by
  simp only [AnimatedValue.lerp, AnimatedValue.float.injEq]
  ring

theorem evaluate_some_some (tr : AnimationTrack) (time : TimePosition)
    (kp kn : Keyframe) (he : tr.enabled = true) (hm : tr.muted = false)
    (hne : tr.keyframes.isEmpty = false)
    (hfk : tr.findKeyframes time = (some kp, some kn)) :
    tr.evaluate time =
      if kp.time.ms = time.ms then kp.value
      else if kp.interpolation = InterpolationType.hold then kp.value
      else
        kp.value.lerp kn.value
          (if kp.interpolation = InterpolationType.bezier then
            AnimationTrack.evaluateBezier
              (if (((kn.time.ms - kp.time.ms : ℕ) : ℝ)) > 0 then
                ((time.ms - kp.time.ms : ℕ) : ℝ) / ((kn.time.ms - kp.time.ms : ℕ) : ℝ)
              else 0) kp kn
          else
            kp.interpolation.evaluate
              (if (((kn.time.ms - kp.time.ms : ℕ) : ℝ)) > 0 then
                ((time.ms - kp.time.ms : ℕ) : ℝ) / ((kn.time.ms - kp.time.ms : ℕ) : ℝ)
              else 0)) := by
  unfold AnimationTrack.evaluate
  rw [if_neg (by rw [he, hne]; simp)]
  rw [if_neg (by rw [hm]; simp)]
  rw [hfk]

/-- C2 (amended): case analysis of `AnimationTrack::evaluate` on a track
with strictly time-sorted keyframes.  A disabled or empty track yields the
default value; a muted track yields its first keyframe's value; a time at
or before the first keyframe yields the first keyframe's value; a time
strictly after the last keyframe yields the last keyframe's value; for a
time bracketed as t_i < t ≤ t_(i+1): an earlier keyframe with Hold
interpolation yields exactly that earlier keyframe's value (even when t is
exactly the later keyframe's time), and otherwise the value interpolates
between the two bracketing keyframes using only the earlier keyframe's
interpolation kind (the later keyframe's interpolation setting never
appears in the result); when t equals the later keyframe's time, the
earlier keyframe is not Hold, and both values are Float, the result is the
later keyframe's value. -/
theorem animation_track_evaluate_cases (tr : AnimationTrack) (time : TimePosition)
    (hs : KeyframesSorted tr.keyframes) :
    (tr.enabled = false ∨ tr.keyframes = [] → tr.evaluate time = tr.defaultValue) ∧
      (∀ k0 ks, tr.keyframes = k0 :: ks → tr.enabled = true → tr.muted = true →
        tr.evaluate time = k0.value) ∧
      (∀ k0 ks, tr.keyframes = k0 :: ks → tr.enabled = true → tr.muted = false →
        time.ms ≤ k0.time.ms → tr.evaluate time = k0.value) ∧
      (∀ klast, tr.keyframes.getLast? = some klast → tr.enabled = true →
        tr.muted = false → klast.time.ms < time.ms →
        tr.evaluate time = klast.value) ∧
      ∀ i kp kn, tr.keyframes[i]? = some kp → tr.keyframes[i + 1]? = some kn →
        tr.enabled = true → tr.muted = false →
        kp.time.ms < time.ms → time.ms ≤ kn.time.ms →
        (kp.interpolation = InterpolationType.hold → tr.evaluate time = kp.value) ∧
          (kp.interpolation ≠ InterpolationType.hold →
            tr.evaluate time =
              kp.value.lerp kn.value
                (if kp.interpolation = InterpolationType.bezier then
                  AnimationTrack.evaluateBezier
                    (((time.ms - kp.time.ms : ℕ) : ℝ) /
                      ((kn.time.ms - kp.time.ms : ℕ) : ℝ)) kp kn
                else
                  kp.interpolation.evaluate
                    (((time.ms - kp.time.ms : ℕ) : ℝ) /
                      ((kn.time.ms - kp.time.ms : ℕ) : ℝ)))) ∧
          (kp.interpolation ≠ InterpolationType.hold → time.ms = kn.time.ms →
            ∀ x y : ℝ, kp.value = AnimatedValue.float x →
              kn.value = AnimatedValue.float y →
              tr.evaluate time = AnimatedValue.float y) := by
  refine ⟨?_, ?_, ?_, ?_, ?_⟩
  · intro h
    have h' : tr.enabled = false ∨ tr.keyframes.isEmpty = true := by
      rcases h with h | h
      · exact Or.inl h
      · exact Or.inr (by simp [h])
    unfold AnimationTrack.evaluate
    rw [if_pos h']
  · intro k0 ks hl he hm
    unfold AnimationTrack.evaluate
    rw [if_neg (by rw [he, hl]; simp)]
    rw [if_pos hm, hl]
  · intro k0 ks hl he hm hle
    unfold AnimationTrack.evaluate
    rw [if_neg (by rw [he, hl]; simp)]
    rw [if_neg (by rw [hm]; simp)]
    rw [findKeyframes_before tr time k0 ks hl hle]
  · intro klast hlast he hm hlt
    unfold AnimationTrack.evaluate
    have hne : tr.keyframes ≠ [] := by
      intro hnil
      rw [hnil] at hlast
      simp at hlast
    rw [if_neg (by rw [he]; simpa [List.isEmpty_iff] using hne)]
    rw [if_neg (by rw [hm]; simp)]
    rw [findKeyframes_after tr time hs klast hlast hlt]
  · intro i kp kn hp hn he hm h1 h2
    have hilen : i + 1 < tr.keyframes.length := by
      by_contra hcon
      rw [List.getElem?_eq_none (by omega)] at hn
      exact Option.noConfusion hn
    have hne : tr.keyframes.isEmpty = false := by
      cases hk : tr.keyframes with
      | nil => rw [hk] at hilen; simp at hilen
      | cons a l => rfl
    have hfk := findKeyframes_bracket tr time hs i kp kn hp hn h1 h2
    have hev := evaluate_some_some tr time kp kn he hm hne hfk
    have hd : (0 : ℝ) < ((kn.time.ms - kp.time.ms : ℕ) : ℝ) := by
      have hpn : kp.time.ms < kn.time.ms := by omega
      exact_mod_cast Nat.sub_pos_of_lt hpn
    rw [if_pos hd] at hev
    have hnt : ¬ kp.time.ms = time.ms := by omega
    rw [if_neg hnt] at hev
    refine ⟨?_, ?_, ?_⟩
    · intro hhold
      rw [hev, if_pos hhold]
    · intro hhold
      rw [hev, if_neg hhold]
    · intro hhold hteq x y hx hy
      have hfrac : ((time.ms - kp.time.ms : ℕ) : ℝ) /
          ((kn.time.ms - kp.time.ms : ℕ) : ℝ) = 1 := by
        rw [hteq]
        exact div_self (ne_of_gt hd)
      rw [hev, if_neg hhold, hfrac]
      rcases eq_or_ne kp.interpolation InterpolationType.bezier with hbez | hbez
      · rw [if_pos hbez, evaluateBezier_one, hx, hy, lerp_float_one]
      · rw [if_neg hbez, easing_at_one kp.interpolation hhold, hx, hy, lerp_float_one]

/-- Counterexample to C2 as stated: on the track with a Hold keyframe
(t = 0, value 0.0) followed by a Linear keyframe (t = 1000, value 100.0),
evaluating exactly at t = 1000 — a time at the last keyframe and exactly
equal to a keyframe's time — returns the EARLIER keyframe's value 0.0, not
100.0 as the claim's at-or-after-last and exactly-at-a-keyframe clauses
require. -/
theorem animation_track_evaluate_cases_cex :
    holdSampleTrack.evaluate ⟨1000⟩ = AnimatedValue.float 0 ∧
      holdSampleTrack.keyframes.getLast? = some holdSampleKf1 ∧
      holdSampleKf1.time.ms = 1000 ∧
      holdSampleKf1.value = AnimatedValue.float 100 ∧
      AnimatedValue.float (0 : ℝ) ≠ AnimatedValue.float 100 := by
  refine ⟨rfl, rfl, rfl, rfl, ?_⟩
  simp only [ne_eq, AnimatedValue.float.injEq]
  norm_num

/-- Witness for C2 (amended) on the Hold sample track: the bracketing
Hold case fires at t = 1000. -/
theorem animation_track_evaluate_cases_witness :
    KeyframesSorted holdSampleTrack.keyframes ∧
      holdSampleTrack.keyframes[0]? = some holdSampleKf0 ∧
      holdSampleTrack.keyframes[1]? = some holdSampleKf1 ∧
      holdSampleKf0.time.ms < 1000 ∧ (1000 : Nat) ≤ holdSampleKf1.time.ms ∧
      holdSampleKf0.interpolation = InterpolationType.hold ∧
      holdSampleTrack.evaluate ⟨1000⟩ = holdSampleKf0.value := by
  have hs : KeyframesSorted holdSampleTrack.keyframes := by
    unfold KeyframesSorted holdSampleTrack holdSampleKf0 holdSampleKf1
    simp
  refine ⟨hs, rfl, rfl, by norm_num [holdSampleKf0], by norm_num [holdSampleKf1], rfl, ?_⟩
  exact ((animation_track_evaluate_cases holdSampleTrack ⟨1000⟩ hs).2.2.2.2 0
    holdSampleKf0 holdSampleKf1 rfl rfl rfl rfl (by norm_num [holdSampleKf0])
    (by norm_num [holdSampleKf1])).1 rfl

/-- C10: the muted shortcut only applies to enabled, nonempty tracks: a
muted track with no keyframes evaluates to the default value, and a track
that is both disabled and muted evaluates to the default value (the
disabled/empty check precedes the muted check). -/
theorem evaluate_muted_precedence (tr : AnimationTrack) (time : TimePosition) :
    (tr.muted = true → tr.keyframes = [] → tr.evaluate time = tr.defaultValue) ∧
      (tr.enabled = false → tr.muted = true → tr.evaluate time = tr.defaultValue) := by
  constructor
  · intro _ hk
    unfold AnimationTrack.evaluate
    rw [if_pos (Or.inr (by simp [hk]))]
  · intro he _
    unfold AnimationTrack.evaluate
    rw [if_pos (Or.inl he)]

/-- Witness for C10 on a muted empty track and a disabled muted track. -/
theorem evaluate_muted_precedence_witness :
    (mutedEmptyTrack.muted = true ∧ mutedEmptyTrack.keyframes = [] ∧
        mutedEmptyTrack.evaluate ⟨3⟩ = mutedEmptyTrack.defaultValue) ∧
      disabledMutedTrack.enabled = false ∧ disabledMutedTrack.muted = true ∧
        disabledMutedTrack.evaluate ⟨3⟩ = disabledMutedTrack.defaultValue :=
  ⟨⟨rfl, rfl, (evaluate_muted_precedence mutedEmptyTrack ⟨3⟩).1 rfl rfl⟩,
    rfl, rfl, (evaluate_muted_precedence disabledMutedTrack ⟨3⟩).2 rfl rfl⟩

/-! ### Clip splitting (claim C3) -/

theorem splitAt_none_iff (c : TimelineClip) (position : TimePosition) (newId : Nat) :
    c.splitAt position newId = none ↔
      position.ms ≤ c.start.ms ∨ c.start.ms + c.duration.ms ≤ position.ms := by
  unfold TimelineClip.splitAt
  by_cases h : position.ms ≤ c.start.ms ∨ c.endPos.ms ≤ position.ms
  · rw [if_pos h]
    simp only [true_iff]
    simpa [TimelineClip.endPos] using h
  · rw [if_neg h]
    constructor
    · intro hcon
      exact Option.noConfusion hcon
    · intro hcon
      exact absurd hcon (by simpa [TimelineClip.endPos] using h)

/-- C3: `split_at` fails exactly when the position is at or outside the
clip's open interval; on success the two clips partition the timeline
span and the source range at in_point + elapsed * speed. -/
theorem timeline_clip_split (c : TimelineClip) (position : TimePosition) (newId : Nat) :
    (c.splitAt position newId = none ↔
      position.ms ≤ c.start.ms ∨ c.start.ms + c.duration.ms ≤ position.ms) ∧
      ∀ f s, c.splitAt position newId = some (f, s) →
        f.duration.ms + s.duration.ms = c.duration.ms ∧
          f.start.ms = c.start.ms ∧ f.endPos.ms = position.ms ∧
          s.start.ms = position.ms ∧ s.endPos.ms = c.start.ms + c.duration.ms ∧
          f.inPoint = c.inPoint ∧
          f.outPoint.ms =
            c.inPoint.ms + u64OfRat (((position.ms - c.start.ms : ℕ) : ℚ) * c.speed) ∧
          s.inPoint.ms =
            c.inPoint.ms + u64OfRat (((position.ms - c.start.ms : ℕ) : ℚ) * c.speed) ∧
          s.outPoint = c.outPoint ∧ f.id = c.id ∧ s.id = newId := by
  refine ⟨splitAt_none_iff c position newId, ?_⟩
  intro f s h
  unfold TimelineClip.splitAt at h
  by_cases hc : position.ms ≤ c.start.ms ∨ c.endPos.ms ≤ position.ms
  · rw [if_pos hc] at h
    exact Option.noConfusion h
  · rw [if_neg hc] at h
    push_neg at hc
    obtain ⟨h1, h2⟩ := hc
    simp only [TimelineClip.endPos] at h2
    simp only [Option.some.injEq, Prod.mk.injEq] at h
    obtain ⟨hf, hs⟩ := h
    subst hf
    subst hs
    simp [TimelineClip.endPos]
    omega

/-- Witness for C3: splitting the sample clip [10, 110) at 30 succeeds and
partitions the span and the source range. -/
theorem timeline_clip_split_witness :
    splitSampleClip.splitAt ⟨30⟩ 2 = some (splitSampleFirst, splitSampleSecond) ∧
      splitSampleFirst.duration.ms + splitSampleSecond.duration.ms =
        splitSampleClip.duration.ms ∧
      splitSampleFirst.endPos.ms = 30 ∧ splitSampleSecond.start.ms = 30 := by
  have h : splitSampleClip.splitAt ⟨30⟩ 2 = some (splitSampleFirst, splitSampleSecond) := by
    unfold splitSampleClip TimelineClip.splitAt TimelineClip.new TimelineClip.endPos
      u64OfRat splitSampleFirst splitSampleSecond
    norm_num
    decide
  exact ⟨h, ((timeline_clip_split splitSampleClip ⟨30⟩ 2).2 _ _ h).1,
    ((timeline_clip_split splitSampleClip ⟨30⟩ 2).2 _ _ h).2.2.1,
    ((timeline_clip_split splitSampleClip ⟨30⟩ 2).2 _ _ h).2.2.2.1⟩

/-! ### Track no-overlap (claim C5) -/

theorem clipOverlap_symm {a b : TimelineClip}
    (h : ¬(a.start.ms < b.endPos.ms ∧ b.start.ms < a.endPos.ms)) :
    ¬(b.start.ms < a.endPos.ms ∧ a.start.ms < b.endPos.ms) :=
  fun hc => h ⟨hc.2, hc.1⟩

theorem noClipOverlap_perm {l l' : List TimelineClip} (h : NoClipOverlap l)
    (hp : l.Perm l') : NoClipOverlap l' :=
  List.Pairwise.perm h hp (fun hxy => clipOverlap_symm hxy)

theorem addClip_clips_perm (t : TimelineTrack) (c : TimelineClip) :
    (t.addClip c).clips.Perm (t.clips ++ [c]) :=
  List.mergeSort_perm _ _

theorem addClip_noOverlap (t : TimelineTrack) (c : TimelineClip)
    (h : NoClipOverlap t.clips)
    (hok : ∀ a ∈ t.clips, ¬(a.start.ms < c.endPos.ms ∧ c.start.ms < a.endPos.ms)) :
    NoClipOverlap (t.addClip c).clips := by
  refine noClipOverlap_perm ?_ (addClip_clips_perm t c).symm
  unfold NoClipOverlap
  rw [List.pairwise_append]
  refine ⟨h, List.pairwise_singleton _ _, ?_⟩
  intro a ha b hb
  rw [List.mem_singleton] at hb
  subst hb
  exact hok a ha

theorem isRangeAvailable_iff (t : TimelineTrack) (s e : TimePosition) :
    t.isRangeAvailable s e = true ↔
      ∀ c ∈ t.clips, ¬(s.ms < c.endPos.ms ∧ c.start.ms < e.ms) := by
  unfold TimelineTrack.isRangeAvailable
  simp [not_and]

theorem splitAt_parts (c : TimelineClip) (position : TimePosition) (newId : Nat)
    (f s : TimelineClip) (h : c.splitAt position newId = some (f, s)) :
    c.start.ms < position.ms ∧ position.ms < c.endPos.ms ∧
      f.start.ms = c.start.ms ∧ f.endPos.ms = position.ms ∧
      s.start.ms = position.ms ∧ s.endPos.ms = c.endPos.ms := by
  unfold TimelineClip.splitAt at h
  by_cases hc : position.ms ≤ c.start.ms ∨ c.endPos.ms ≤ position.ms
  · rw [if_pos hc] at h
    exact Option.noConfusion h
  · rw [if_neg hc] at h
    push_neg at hc
    obtain ⟨h1, h2⟩ := hc
    simp only [TimelineClip.endPos] at h2
    simp only [Option.some.injEq, Prod.mk.injEq] at h
    obtain ⟨hf, hs⟩ := h
    subst hf
    subst hs
    simp [TimelineClip.endPos]
    omega

theorem findIdx?_of_find? {α : Type*} (p : α → Bool) (l : List α) (c : α)
    (h : l.find? p = some c) :
    ∃ i, l.findIdx? p = some i ∧ ∃ hlt : i < l.length, l.get ⟨i, hlt⟩ = c := by
  induction l with
  | nil => simp at h
  | cons a as ih =>
      by_cases hpa : p a = true
      · simp only [List.find?_cons, hpa] at h
        refine ⟨0, ?_, by simp, ?_⟩
        · rw [List.findIdx?_cons, if_pos hpa]
        · simpa using h
      · have hpa' : p a = false := by
          cases hv : p a
          · rfl
          · exact absurd hv hpa
        simp only [List.find?_cons, hpa'] at h
        obtain ⟨i, hi, hlt, hget⟩ := ih h
        refine ⟨i + 1, ?_, by simpa using hlt, by simpa using hget⟩
        rw [List.findIdx?_cons, if_neg (by simp [hpa']), List.findIdx?_succ, hi]
        rfl

theorem perm_cons_eraseIdx {α : Type*} (l : List α) (i : Nat) (hi : i < l.length) :
    l.Perm (l.get ⟨i, hi⟩ :: l.eraseIdx i) := by
  simp only [List.get_eq_getElem]
  conv_lhs => rw [← List.take_append_drop i l]
  rw [List.drop_eq_getElem_cons hi, List.eraseIdx_eq_take_drop_succ]
  exact List.perm_middle

theorem overlap_mono (a c f : TimelineClip)
    (h : ¬(a.start.ms < c.endPos.ms ∧ c.start.ms < a.endPos.ms))
    (h1 : c.start.ms ≤ f.start.ms) (h2 : f.endPos.ms ≤ c.endPos.ms) :
    ¬(a.start.ms < f.endPos.ms ∧ f.start.ms < a.endPos.ms) :=
  fun hc => h ⟨by omega, by omega⟩

/-- C5 (amended): guarded editing preserves the no-overlap invariant: any
sequence of clip adds that are checked with `is_range_available` and of
splits that replace a clip by its two `split_at` halves keeps all clip
[start, end) spans on the track pairwise non-intersecting.  (The raw
`add_clip` itself performs no such check — see the counterexample.) -/
theorem track_no_overlap_invariant (ops : List TrackOp) (t0 : TimelineTrack)
    (h0 : NoClipOverlap t0.clips) :
    NoClipOverlap ((ops.foldl applyTrackOp t0).clips) := by
  induction ops generalizing t0 with
  | nil => exact h0
  | cons op rest ih =>
      rw [List.foldl_cons]
      refine ih _ ?_
      cases op with
      | add clip =>
          simp only [applyTrackOp]
          split
          · next hg =>
              refine addClip_noOverlap t0 clip h0 ?_
              intro a ha
              have hna := (isRangeAvailable_iff t0 clip.start clip.endPos).mp hg a ha
              exact fun hc => hna ⟨hc.2, hc.1⟩
          · exact h0
      | split cid pos nid =>
          cases hfind : t0.clips.find? (fun c => decide (c.id = cid)) with
          | none =>
              have happ : applyTrackOp t0 (TrackOp.split cid pos nid) = t0 := by
                simp only [applyTrackOp, hfind]
              rw [happ]
              exact h0
          | some c =>
              cases hsplit : c.splitAt pos nid with
              | none =>
                  have happ : applyTrackOp t0 (TrackOp.split cid pos nid) = t0 := by
                    simp only [applyTrackOp, hfind, hsplit]
                  rw [happ]
                  exact h0
              | some fs =>
                  obtain ⟨f, s⟩ := fs
                  have happ : applyTrackOp t0 (TrackOp.split cid pos nid) =
                      ((t0.removeClip cid).1.addClip f).addClip s := by
                    simp only [applyTrackOp, hfind, hsplit]
                  rw [happ]
                  obtain ⟨hps1, hps2, hf1, hf2, hs1, hs2⟩ :=
                    splitAt_parts c pos nid f s hsplit
                  obtain ⟨idx, hidx, hlt, hget⟩ := findIdx?_of_find? _ t0.clips c hfind
                  have hperm : t0.clips.Perm (c :: t0.clips.eraseIdx idx) := by
                    have hp := perm_cons_eraseIdx t0.clips idx hlt
                    rwa [hget] at hp
                  have hrm : (t0.removeClip cid).1.clips = t0.clips.eraseIdx idx := by
                    unfold TimelineTrack.removeClip
                    rw [hidx]
                  have hpc : NoClipOverlap (c :: t0.clips.eraseIdx idx) :=
                    noClipOverlap_perm h0 hperm
                  have herased : NoClipOverlap (t0.clips.eraseIdx idx) :=
                    (List.pairwise_cons.mp hpc).2
                  have hRc : ∀ a ∈ t0.clips.eraseIdx idx,
                      ¬(c.start.ms < a.endPos.ms ∧ a.start.ms < c.endPos.ms) :=
                    (List.pairwise_cons.mp hpc).1
                  have ht1 : NoClipOverlap ((t0.removeClip cid).1.addClip f).clips := by
                    refine addClip_noOverlap _ f ?_ ?_
                    · rw [hrm]; exact herased
                    · rw [hrm]
                      intro a ha
                      have hac : ¬(a.start.ms < c.endPos.ms ∧ c.start.ms < a.endPos.ms) :=
                        fun hc => hRc a ha ⟨hc.2, hc.1⟩
                      exact overlap_mono a c f hac (by omega) (by omega)
                  refine addClip_noOverlap _ s ht1 ?_
                  intro a ha
                  have hmem :=
                    ((addClip_clips_perm (t0.removeClip cid).1 f).mem_iff).mp ha
                  rw [hrm] at hmem
                  rcases List.mem_append.mp hmem with hae | haf
                  · have hac : ¬(a.start.ms < c.endPos.ms ∧ c.start.ms < a.endPos.ms) :=
                      fun hc => hRc a hae ⟨hc.2, hc.1⟩
                    exact overlap_mono a c s hac (by omega) (by omega)
                  · rw [List.mem_singleton] at haf
                    subst haf
                    intro hc
                    omega

/-- Counterexample to C5 as stated: `add_clip` performs no availability
check, so adding the clip [5, 15) to a track already holding [0, 10)
succeeds and leaves two intersecting clips on the track. -/
theorem track_no_overlap_cex :
    (((TimelineTrack.new 1 "V1" TrackType.video 0).addClip overlapSampleClipA).addClip
        overlapSampleClipB).clips = [overlapSampleClipA, overlapSampleClipB] ∧
      overlapSampleClipA.start.ms < overlapSampleClipB.endPos.ms ∧
      overlapSampleClipB.start.ms < overlapSampleClipA.endPos.ms ∧
      ¬ NoClipOverlap
        (((TimelineTrack.new 1 "V1" TrackType.video 0).addClip
            overlapSampleClipA).addClip overlapSampleClipB).clips := by
  have e1 : (([] : List TimelineClip) ++ [overlapSampleClipA]).mergeSort
      (fun a b => decide (a.start.ms ≤ b.start.ms)) = [overlapSampleClipA] := by
    rw [List.nil_append, List.mergeSort_singleton]
  have e2 : ([overlapSampleClipA] ++ [overlapSampleClipB]).mergeSort
      (fun a b => decide (a.start.ms ≤ b.start.ms)) =
      [overlapSampleClipA, overlapSampleClipB] :=
    List.mergeSort_of_sorted (by decide)
  have h1 :
      (((TimelineTrack.new 1 "V1" TrackType.video 0).addClip overlapSampleClipA).addClip
        overlapSampleClipB).clips = [overlapSampleClipA, overlapSampleClipB] := by
    unfold TimelineTrack.addClip TimelineTrack.new
    simp only [e1]
    exact e2
  refine ⟨h1, by decide, by decide, ?_⟩
  rw [h1]
  intro hno
  have hR := (List.pairwise_cons.mp hno).1 overlapSampleClipB (by simp)
  exact hR ⟨by decide, by decide⟩

/-- Witness for C5 (amended): a guarded add, a rejected overlapping add,
and a split, starting from an empty track. -/
theorem track_no_overlap_invariant_witness :
    NoClipOverlap (TimelineTrack.new 1 "V1" TrackType.video 0).clips ∧
      NoClipOverlap
        (([TrackOp.add overlapSampleClipA, TrackOp.add overlapSampleClipB,
            TrackOp.split 1 ⟨4⟩ 5].foldl applyTrackOp
          (TimelineTrack.new 1 "V1" TrackType.video 0)).clips) :=
  ⟨by simp [NoClipOverlap, TimelineTrack.new],
    track_no_overlap_invariant _ _ (by simp [NoClipOverlap, TimelineTrack.new])⟩

/-! ### Transition progress (claim C9) -/

theorem qclamp_bounds (x : ℚ) : 0 ≤ qclamp x 0 1 ∧ qclamp x 0 1 ≤ 1 := by
  unfold qclamp
  split_ifs <;> constructor <;> linarith

/-- C9: `Transition::update` sets progress to 1 when the duration is zero
and otherwise to the saturating elapsed time divided by the duration,
clamped to [0, 1]; progress therefore always lies in [0, 1], and (in the
nonzero-duration case) a current time at or before the start time yields
progress 0. -/
theorem transition_update_progress (tr : Transition)
    (currentTime startTime : TimePosition) :
    (tr.duration.ms = 0 → (tr.update currentTime startTime).progress = 1) ∧
      (tr.duration.ms ≠ 0 →
        (tr.update currentTime startTime).progress =
          qclamp (((currentTime.ms - startTime.ms : ℕ) : ℚ) / (tr.duration.ms : ℚ)) 0 1) ∧
      (0 ≤ (tr.update currentTime startTime).progress ∧
        (tr.update currentTime startTime).progress ≤ 1) ∧
      (tr.duration.ms ≠ 0 → currentTime.ms ≤ startTime.ms →
        (tr.update currentTime startTime).progress = 0) := by
  unfold Transition.update
  by_cases hd : tr.duration.ms = 0
  · rw [if_pos hd]
    refine ⟨fun _ => rfl, fun hne => absurd hd hne, by norm_num, fun hne => absurd hd hne⟩
  · rw [if_neg hd]
    refine ⟨fun h0 => absurd h0 hd, fun _ => rfl, qclamp_bounds _, ?_⟩
    intro _ hle
    have hz : currentTime.ms - startTime.ms = 0 := by omega
    rw [hz]
    unfold qclamp
    norm_num

/-! ### Export queue invariants (claims C6, C7) -/

theorem modifyJob_map_id (l : List ExportJob) (id : Nat) (f : ExportJob → ExportJob)
    (hf : ∀ x, (f x).id = x.id) :
    (ExportQueue.modifyJob l id f).map (fun j => j.id) = l.map (fun j => j.id) := by
  induction l with
  | nil => rfl
  | cons j js ih =>
      unfold ExportQueue.modifyJob
      split
      · simp [hf]
      · simp only [List.map_cons]
        rw [ih]

theorem filter_length_modifyJob_le (l : List ExportJob) (id : Nat)
    (f : ExportJob → ExportJob) (p : ExportJob → Bool) :
    ((ExportQueue.modifyJob l id f).filter p).length ≤ (l.filter p).length + 1 := by
  induction l with
  | nil => simp [ExportQueue.modifyJob]
  | cons j js ih =>
      unfold ExportQueue.modifyJob
      split
      · cases hpf : p (f j) <;> cases hpj : p j <;>
          simp [List.filter_cons, hpf, hpj] <;> omega
      · cases hpj : p j <;> simp [List.filter_cons, hpj] <;> omega

theorem filter_length_modifyJob_mono (l : List ExportJob) (id : Nat)
    (f : ExportJob → ExportJob) (p : ExportJob → Bool)
    (hmono : ∀ x, p (f x) = true → p x = true) :
    ((ExportQueue.modifyJob l id f).filter p).length ≤ (l.filter p).length := by
  induction l with
  | nil => simp [ExportQueue.modifyJob]
  | cons j js ih =>
      unfold ExportQueue.modifyJob
      split
      · cases hpf : p (f j)
        · cases hpj : p j <;> simp [List.filter_cons, hpf, hpj] <;> omega
        · have hpj := hmono j hpf
          simp [List.filter_cons, hpf, hpj]
      · cases hpj : p j <;> simp [List.filter_cons, hpj] <;> omega

theorem filter_length_modifyJob_dec (l : List ExportJob) (id : Nat)
    (f : ExportJob → ExportJob) (p : ExportJob → Bool) (jc : ExportJob)
    (hid : jc.id = id) (hact : p jc = true) (hnew : p (f jc) = false) :
    (l.map (fun j => j.id)).Nodup → jc ∈ l →
      ((ExportQueue.modifyJob l id f).filter p).length + 1 = (l.filter p).length := by
  induction l with
  | nil => intro _ hj; cases hj
  | cons j js ih =>
      intro hnd hj
      unfold ExportQueue.modifyJob
      split
      · next hjid =>
          have hjc : jc = j := by
            rcases List.mem_cons.mp hj with rfl | hmem
            · rfl
            · exfalso
              have hin : j.id ∈ js.map (fun j => j.id) := by
                have : jc.id ∈ js.map (fun j => j.id) :=
                  List.mem_map_of_mem (fun j => j.id) hmem
                rwa [hid, ← hjid] at this
              exact (List.nodup_cons.mp (by simpa using hnd)).1 hin
          subst hjc
          simp [List.filter_cons, hnew, hact]
      · next hjid =>
          have hjcne : jc ≠ j := fun he => hjid (by rw [← he, hid])
          have hmem : jc ∈ js := by
            rcases List.mem_cons.mp hj with rfl | hm
            · exact absurd rfl hjcne
            · exact hm
          have ihh := ih (List.nodup_cons.mp (by simpa using hnd)).2 hmem
          cases hpj : p j <;> simp [List.filter_cons, hpj] <;> omega

theorem mem_modifyJob_of_ne (l : List ExportJob) (id : Nat)
    (f : ExportJob → ExportJob) (j : ExportJob) (hne : j.id ≠ id) :
    j ∈ l → j ∈ ExportQueue.modifyJob l id f := by
  induction l with
  | nil => intro hj; cases hj
  | cons k ks ih =>
      intro hj
      unfold ExportQueue.modifyJob
      split
      · next hkid =>
          rcases List.mem_cons.mp hj with rfl | hm
          · exact absurd hkid hne
          · exact List.mem_cons_of_mem _ hm
      · rcases List.mem_cons.mp hj with rfl | hm
        · exact List.mem_cons_self _ _
        · exact List.mem_cons_of_mem _ (ih hm)

theorem modifyJob_exists (l : List ExportJob) (id : Nat)
    (f : ExportJob → ExportJob) :
    (∃ j ∈ l, j.id = id) →
      ∃ orig ∈ l, orig.id = id ∧ f orig ∈ ExportQueue.modifyJob l id f := by
  induction l with
  | nil => intro ⟨j, hj, _⟩; cases hj
  | cons k ks ih =>
      intro ⟨j, hj, hjid⟩
      unfold ExportQueue.modifyJob
      split
      · next hkid =>
          exact ⟨k, List.mem_cons_self _ _, hkid, List.mem_cons_self _ _⟩
      · next hkid =>
          have hjk : j ∈ ks := by
            rcases List.mem_cons.mp hj with rfl | hm
            · exact absurd hjid hkid
            · exact hm
          obtain ⟨orig, ho, hoid, hmem⟩ := ih ⟨j, hjk, hjid⟩
          exact ⟨orig, List.mem_cons_of_mem _ ho, hoid, List.mem_cons_of_mem _ hmem⟩

theorem inv_new : QueueInv ExportQueue.new := by
  unfold QueueInv ExportQueue.new ExportQueue.activeJobs
  simp

theorem inv_addJob (q : ExportQueue) (p st tf : Nat) (h : QueueInv q) :
    QueueInv (q.addJob p st tf).1 := by
  obtain ⟨hnd, hbound, hcur, hac, hmax⟩ := h
  simp only [ExportQueue.addJob, QueueInv, ExportQueue.activeJobs]
  refine ⟨?_, ?_, ?_, ?_, ?_⟩
  · simp only [List.map_append, List.map_cons, List.map_nil]
    rw [List.nodup_append]
    refine ⟨hnd, List.nodup_singleton _, ?_⟩
    intro a ha hb
    obtain ⟨j, hj, rfl⟩ := List.mem_map.mp ha
    simp only [List.mem_singleton] at hb
    have := hbound j hj
    omega
  · intro j hj
    rcases List.mem_append.mp hj with hold | hnew
    · have := hbound j hold
      omega
    · simp only [List.mem_singleton] at hnew
      subst hnew
      show q.nextId < q.nextId + 1
      omega
  · intro id hc
    obtain ⟨j, hj, hjid, hjact⟩ := hcur id hc
    exact ⟨j, List.mem_append_left _ hj, hjid, hjact⟩
  · rw [List.filter_append]
    simp only [List.filter_cons, List.filter_nil]
    norm_num [isActiveStatus]
    exact hac
  · rw [List.filter_append]
    simp only [List.filter_cons, List.filter_nil]
    norm_num [isActiveStatus]
    exact hmax

theorem inv_startNext (q : ExportQueue) (h : QueueInv q) : QueueInv q.startNext.1 := by
  obtain ⟨hnd, hbound, hcur, hac, hmax⟩ := h
  by_cases hguard : q.maxConcurrent ≤ q.activeCount
  · have hs : q.startNext = (q, none) := by
      unfold ExportQueue.startNext
      rw [if_pos hguard]
    rw [hs]
    exact ⟨hnd, hbound, hcur, hac, hmax⟩
  · cases hh : (ExportQueue.queuedJobs q).head? with
    | none =>
        have hs : q.startNext = (q, none) := by
          simp only [ExportQueue.startNext, if_neg hguard, hh]
        rw [hs]
        exact ⟨hnd, hbound, hcur, hac, hmax⟩
    | some j =>
        cases hg : q.getJob j.id with
        | none =>
            have hs : q.startNext = (q, none) := by
              simp only [ExportQueue.startNext, if_neg hguard, hh, hg]
            rw [hs]
            exact ⟨hnd, hbound, hcur, hac, hmax⟩
        | some k =>
            have hjq : j ∈ ExportQueue.queuedJobs q := by
              cases hql : ExportQueue.queuedJobs q with
              | nil => rw [hql] at hh; simp at hh
              | cons a r =>
                  rw [hql] at hh
                  simp only [List.head?_cons, Option.some.injEq] at hh
                  subst hh
                  exact List.mem_cons_self _ _
            have hjmem : j ∈ q.jobs ∧ j.status = ExportStatus.queued := by
              unfold ExportQueue.queuedJobs at hjq
              have := (List.mergeSort_perm
                (q.jobs.filter (fun j => decide (j.status = ExportStatus.queued)))
                (fun a b => decide (b.priority ≤ a.priority))).mem_iff.mp hjq
              simpa using List.mem_filter.mp this
            have hs : q.startNext =
                ({ q with
                    jobs := ExportQueue.modifyJob q.jobs j.id
                      (fun k => { k with status := ExportStatus.preparing })
                    current := some j.id
                    activeCount := q.activeCount + 1 }, some j.id) := by
              simp only [ExportQueue.startNext, if_neg hguard, hh, hg]
            rw [hs]
            have hmap := modifyJob_map_id q.jobs j.id
              (fun k => { k with status := ExportStatus.preparing }) (fun x => rfl)
            refine ⟨?_, ?_, ?_, ?_, ?_⟩
            · simpa [hmap] using hnd
            · intro k' hk'
              have hk'id : k'.id ∈ (ExportQueue.modifyJob q.jobs j.id
                  (fun k => { k with status := ExportStatus.preparing })).map
                  (fun j => j.id) :=
                List.mem_map_of_mem _ hk'
              rw [hmap] at hk'id
              obtain ⟨orig, ho, hoi⟩ := List.mem_map.mp hk'id
              rw [← hoi]
              exact hbound orig ho
            · intro id0 hc
              simp only [Option.some.injEq] at hc
              subst hc
              obtain ⟨orig, ho, hoid, hmem⟩ := modifyJob_exists q.jobs j.id
                (fun k => { k with status := ExportStatus.preparing })
                ⟨j, hjmem.1, rfl⟩
              exact ⟨{ orig with status := ExportStatus.preparing }, hmem, hoid, rfl⟩
            · unfold ExportQueue.activeJobs at hac ⊢
              have := filter_length_modifyJob_le q.jobs j.id
                (fun k => { k with status := ExportStatus.preparing })
                (fun j => isActiveStatus j.status)
              simp only
              omega
            · unfold ExportQueue.activeJobs at hac ⊢
              have := filter_length_modifyJob_le q.jobs j.id
                (fun k => { k with status := ExportStatus.preparing })
                (fun j => isActiveStatus j.status)
              simp only
              omega

theorem inv_cancelJob (q : ExportQueue) (id : Nat) (h : QueueInv q) :
    QueueInv (q.cancelJob id).1 := by
  obtain ⟨hnd, hbound, hcur, hac, hmax⟩ := h
  cases hg : q.getJob id with
  | none =>
      have hs : q.cancelJob id = (q, .error "Job not found") := by
        simp only [ExportQueue.cancelJob, hg]
      rw [hs]
      exact ⟨hnd, hbound, hcur, hac, hmax⟩
  | some j =>
      by_cases hcomp : j.isComplete = true
      · have hs : q.cancelJob id = (q, .error "Cannot cancel completed job") := by
          simp only [ExportQueue.cancelJob, hg, hcomp, if_true]
        rw [hs]
        exact ⟨hnd, hbound, hcur, hac, hmax⟩
      · have hmap := modifyJob_map_id q.jobs id
          (fun k => { k with status := ExportStatus.cancelled }) (fun x => rfl)
        have hmono := filter_length_modifyJob_mono q.jobs id
          (fun k => { k with status := ExportStatus.cancelled })
          (fun j => isActiveStatus j.status) (fun x hx => by simp [isActiveStatus] at hx)
        have hnodup' : ((ExportQueue.modifyJob q.jobs id
            (fun k => { k with status := ExportStatus.cancelled })).map
            (fun j => j.id)).Nodup := by simpa [hmap] using hnd
        have hbound' : ∀ k' ∈ ExportQueue.modifyJob q.jobs id
            (fun k => { k with status := ExportStatus.cancelled }), k'.id < q.nextId := by
          intro k' hk'
          have hk'id : k'.id ∈ (ExportQueue.modifyJob q.jobs id
              (fun k => { k with status := ExportStatus.cancelled })).map
              (fun j => j.id) := List.mem_map_of_mem _ hk'
          rw [hmap] at hk'id
          obtain ⟨orig, ho, hoi⟩ := List.mem_map.mp hk'id
          rw [← hoi]
          exact hbound orig ho
        by_cases hcurid : q.current = some id
        · have hs : (q.cancelJob id).1 =
              { q with
                jobs := ExportQueue.modifyJob q.jobs id
                  (fun k => { k with status := ExportStatus.cancelled })
                current := none
                activeCount := q.activeCount - 1 } := by
            simp only [ExportQueue.cancelJob, hg, hcomp, Bool.false_eq_true, if_false]
            rw [if_pos hcurid]
          rw [hs]
          obtain ⟨jc, hjc, hjcid, hjcact⟩ := hcur id hcurid
          have hdec := filter_length_modifyJob_dec q.jobs id
            (fun k => { k with status := ExportStatus.cancelled })
            (fun j => isActiveStatus j.status) jc hjcid hjcact (by simp [isActiveStatus])
            hnd hjc
          refine ⟨hnodup', hbound', ?_, ?_, ?_⟩
          · intro id0 hc
            exact Option.noConfusion hc
          · unfold ExportQueue.activeJobs at hac ⊢
            simp only
            omega
          · unfold ExportQueue.activeJobs at hac hmax ⊢
            simp only
            omega
        · have hs : (q.cancelJob id).1 =
              { q with
                jobs := ExportQueue.modifyJob q.jobs id
                  (fun k => { k with status := ExportStatus.cancelled }) } := by
            simp only [ExportQueue.cancelJob, hg, hcomp, Bool.false_eq_true, if_false]
            rw [if_neg hcurid]
          rw [hs]
          refine ⟨hnodup', hbound', ?_, ?_, ?_⟩
          · intro id0 hc
            obtain ⟨j0, hj0, hj0id, hj0act⟩ := hcur id0 hc
            have hne : j0.id ≠ id := by
              intro he
              apply hcurid
              rw [hc, ← hj0id, he]
            exact ⟨j0, mem_modifyJob_of_ne q.jobs id _ j0 hne hj0, hj0id, hj0act⟩
          · unfold ExportQueue.activeJobs at hac ⊢
            simp only
            omega
          · unfold ExportQueue.activeJobs at hmax ⊢
            simp only
            omega

theorem inv_removeJob (q : ExportQueue) (id : Nat) (h : QueueInv q) :
    QueueInv (q.removeJob id).1 := by
  obtain ⟨hnd, hbound, hcur, hac, hmax⟩ := h
  cases hfi : q.jobs.findIdx? (fun j => decide (j.id = id)) with
  | none =>
      have hs : (q.removeJob id).1 = q := by
        simp only [ExportQueue.removeJob, hfi]
      rw [hs]
      exact ⟨hnd, hbound, hcur, hac, hmax⟩
  | some pos =>
      cases hge : q.jobs[pos]? with
      | none =>
          have hs : (q.removeJob id).1 = q := by
            simp only [ExportQueue.removeJob, hfi, hge]
          rw [hs]
          exact ⟨hnd, hbound, hcur, hac, hmax⟩
      | some j =>
          by_cases href : j.isComplete = false ∧ j.status ≠ ExportStatus.queued
          · have hs : (q.removeJob id).1 = q := by
              simp only [ExportQueue.removeJob, hfi, hge]
              rw [if_pos href]
            rw [hs]
            exact ⟨hnd, hbound, hcur, hac, hmax⟩
          · have hs : (q.removeJob id).1 = { q with jobs := q.jobs.eraseIdx pos } := by
              simp only [ExportQueue.removeJob, hfi, hge]
              rw [if_neg href]
            rw [hs]
            have hpos : pos < q.jobs.length := by
              by_contra hcon
              rw [List.getElem?_eq_none (by omega)] at hge
              exact Option.noConfusion hge
            have hjpos : q.jobs[pos] = j := by
              rw [List.getElem?_eq_getElem hpos] at hge
              exact (Option.some.injEq _ _).mp hge
            have hsub : (q.jobs.eraseIdx pos).Sublist q.jobs :=
              List.eraseIdx_sublist q.jobs pos
            have hjq : j.isComplete = true ∨ j.status = ExportStatus.queued := by
              by_cases hic : j.isComplete = true
              · exact Or.inl hic
              · right
                have hic' : j.isComplete = false := by
                  cases hv : j.isComplete
                  · rfl
                  · exact absurd hv hic
                by_contra hq
                exact href ⟨hic', hq⟩
            have hjinact : isActiveStatus j.status = false := by
              rcases hjq with hic | hq
              · unfold ExportJob.isComplete at hic
                cases hst : j.status <;> simp_all [isActiveStatus]
              · rw [hq]
                rfl
            refine ⟨?_, ?_, ?_, ?_, ?_⟩
            · exact List.Nodup.sublist (hsub.map (fun j => j.id)) hnd
            · intro k hk
              exact hbound k (hsub.subset hk)
            · intro id0 hc
              obtain ⟨j0, hj0, hj0id, hj0act⟩ := hcur id0 hc
              have hne : j0 ≠ j := by
                intro he
                rw [he, hjinact] at hj0act
                exact Bool.noConfusion hj0act
              have hperm := perm_cons_eraseIdx q.jobs pos hpos
              have hj0in : j0 ∈ q.jobs.eraseIdx pos := by
                rcases List.mem_cons.mp (hperm.mem_iff.mp hj0) with he | hm
                · exfalso
                  apply hne
                  rw [he]
                  simp only [List.get_eq_getElem]
                  exact hjpos
                · exact hm
              exact ⟨j0, hj0in, hj0id, hj0act⟩
            · have := (hsub.filter (fun j => isActiveStatus j.status)).length_le
              unfold ExportQueue.activeJobs at hac ⊢
              simp only
              omega
            · have := (hsub.filter (fun j => isActiveStatus j.status)).length_le
              unfold ExportQueue.activeJobs at hmax ⊢
              simp only
              omega

theorem inv_retryJob (q : ExportQueue) (id : Nat) (h : QueueInv q) :
    QueueInv (q.retryJob id).1 := by
  cases hg : q.getJob id with
  | none =>
      have hs : (q.retryJob id).1 = q := by
        simp only [ExportQueue.retryJob, hg]
      rw [hs]
      exact h
  | some j =>
      by_cases hst : j.status = ExportStatus.failed ∨ j.status = ExportStatus.cancelled
      · have hs : (q.retryJob id).1 = (q.addJob j.projectId j.settings j.totalFrames).1 := by
          simp only [ExportQueue.retryJob, hg]
          rw [if_pos hst]
        rw [hs]
        exact inv_addJob q j.projectId j.settings j.totalFrames h
      · have hs : (q.retryJob id).1 = q := by
          simp only [ExportQueue.retryJob, hg]
          rw [if_neg hst]
        rw [hs]
        exact h

theorem inv_clearCompleted (q : ExportQueue) (h : QueueInv q) :
    QueueInv q.clearCompleted := by
  obtain ⟨hnd, hbound, hcur, hac, hmax⟩ := h
  have hsub : (q.jobs.filter
      (fun j => decide (¬ j.status = ExportStatus.completed))).Sublist q.jobs :=
    List.filter_sublist q.jobs
  refine ⟨?_, ?_, ?_, ?_, ?_⟩
  · exact List.Nodup.sublist (hsub.map (fun j => j.id)) hnd
  · intro k hk
    exact hbound k (hsub.subset hk)
  · intro id0 hc
    obtain ⟨j0, hj0, hj0id, hj0act⟩ := hcur id0 hc
    refine ⟨j0, List.mem_filter.mpr ⟨hj0, ?_⟩, hj0id, hj0act⟩
    simp only [decide_eq_true_eq]
    intro he
    rw [he] at hj0act
    simp [isActiveStatus] at hj0act
  · have := (hsub.filter (fun j => isActiveStatus j.status)).length_le
    unfold ExportQueue.activeJobs at hac ⊢
    simp only [ExportQueue.clearCompleted]
    omega
  · have := (hsub.filter (fun j => isActiveStatus j.status)).length_le
    unfold ExportQueue.activeJobs at hmax ⊢
    simp only [ExportQueue.clearCompleted]
    omega

theorem inv_clearFailed (q : ExportQueue) (h : QueueInv q) :
    QueueInv q.clearFailed := by
  obtain ⟨hnd, hbound, hcur, hac, hmax⟩ := h
  have hsub : (q.jobs.filter
      (fun j => decide (¬(j.status = ExportStatus.failed ∨
        j.status = ExportStatus.cancelled)))).Sublist q.jobs :=
    List.filter_sublist q.jobs
  refine ⟨?_, ?_, ?_, ?_, ?_⟩
  · exact List.Nodup.sublist (hsub.map (fun j => j.id)) hnd
  · intro k hk
    exact hbound k (hsub.subset hk)
  · intro id0 hc
    obtain ⟨j0, hj0, hj0id, hj0act⟩ := hcur id0 hc
    refine ⟨j0, List.mem_filter.mpr ⟨hj0, ?_⟩, hj0id, hj0act⟩
    simp only [decide_eq_true_eq]
    intro he
    rcases he with he | he <;> rw [he] at hj0act <;>
      simp [isActiveStatus] at hj0act
  · have := (hsub.filter (fun j => isActiveStatus j.status)).length_le
    unfold ExportQueue.activeJobs at hac ⊢
    simp only [ExportQueue.clearFailed]
    omega
  · have := (hsub.filter (fun j => isActiveStatus j.status)).length_le
    unfold ExportQueue.activeJobs at hmax ⊢
    simp only [ExportQueue.clearFailed]
    omega

theorem inv_setMaxConcurrent (q : ExportQueue) (m : Nat) (h : QueueInv q)
    (hguard : q.activeJobs.length ≤ max m 1) :
    QueueInv (q.setMaxConcurrent m) := by
  obtain ⟨hnd, hbound, hcur, hac, hmax⟩ := h
  exact ⟨hnd, hbound, hcur, hac, hguard⟩

theorem queueInv_of_reachable (q : ExportQueue) (h : QueueReachable q) : QueueInv q := by
  induction h with
  | init => exact inv_new
  | addJob q p st tf _ ih => exact inv_addJob q p st tf ih
  | startNext q _ ih => exact inv_startNext q ih
  | cancelJob q id _ ih => exact inv_cancelJob q id ih
  | removeJob q id _ ih => exact inv_removeJob q id ih
  | retryJob q id _ ih => exact inv_retryJob q id ih
  | clearCompleted q _ ih => exact inv_clearCompleted q ih
  | clearFailed q _ ih => exact inv_clearFailed q ih
  | setMaxConcurrent q m _ hg ih => exact inv_setMaxConcurrent q m ih hg

theorem find?_first {α : Type*} (p : α → Bool) (l : List α) (c : α) :
    c ∈ l → p c = true →
    (∀ x, List.Sublist [x, c] l → p x = true → x = c) →
    l.find? p = some c := by
  induction l with
  | nil => intro hc _ _; cases hc
  | cons a as ih =>
      intro hc hpc hfirst
      by_cases hpa : p a = true
      · have ha : a = c := by
          rcases List.mem_cons.mp hc with rfl | hm
          · rfl
          · exact hfirst a (List.Sublist.cons₂ a (List.singleton_sublist.mpr hm)) hpa
        simp [List.find?_cons, hpa, ha, hpc]
      · have hpa' : p a = false := by
          cases hv : p a
          · rfl
          · exact absurd hv hpa
        have hc' : c ∈ as := by
          rcases List.mem_cons.mp hc with rfl | hm
          · rw [hpc] at hpa'
            exact Bool.noConfusion hpa'
          · exact hm
        have hfirst' : ∀ x, List.Sublist [x, c] as → p x = true → x = c := by
          intro x hx hpx
          exact hfirst x (List.Sublist.cons a hx) hpx
        simp only [List.find?_cons, hpa']
        exact ih hc' hpc hfirst'

theorem queued_head_spec (q : ExportQueue) (j : ExportJob)
    (hnd : (q.jobs.map (fun j => j.id)).Nodup)
    (hh : (ExportQueue.queuedJobs q).head? = some j) :
    j ∈ q.jobs ∧ j.status = ExportStatus.queued ∧
      (∀ k ∈ q.jobs, k.status = ExportStatus.queued → k.priority ≤ j.priority) ∧
      q.jobs.find? (fun k =>
        decide (k.status = ExportStatus.queued ∧ j.priority ≤ k.priority)) = some j := by
  unfold ExportQueue.queuedJobs at hh
  have htrans : ∀ a b c : ExportJob,
      (fun a b : ExportJob => decide (b.priority ≤ a.priority)) a b = true →
      (fun a b : ExportJob => decide (b.priority ≤ a.priority)) b c = true →
      (fun a b : ExportJob => decide (b.priority ≤ a.priority)) a c = true := by
    intro a b c h1 h2
    simp only [decide_eq_true_eq] at h1 h2 ⊢
    omega
  have htotal : ∀ a b : ExportJob,
      ((fun a b : ExportJob => decide (b.priority ≤ a.priority)) a b ||
        (fun a b : ExportJob => decide (b.priority ≤ a.priority)) b a) = true := by
    intro a b
    simp only [Bool.or_eq_true, decide_eq_true_eq]
    omega
  obtain ⟨rest, hrest⟩ : ∃ rest,
      (q.jobs.filter (fun j => decide (j.status = ExportStatus.queued))).mergeSort
        (fun a b : ExportJob => decide (b.priority ≤ a.priority)) = j :: rest := by
    cases hms : (q.jobs.filter (fun j => decide (j.status = ExportStatus.queued))).mergeSort
        (fun a b : ExportJob => decide (b.priority ≤ a.priority)) with
    | nil =>
        rw [hms] at hh
        exact Option.noConfusion hh
    | cons a r =>
        rw [hms] at hh
        simp only [List.head?_cons, Option.some.injEq] at hh
        exact ⟨r, by rw [hh]⟩
  have hperm := List.mergeSort_perm
    (q.jobs.filter (fun j => decide (j.status = ExportStatus.queued)))
    (fun a b : ExportJob => decide (b.priority ≤ a.priority))
  have hjq0 : j ∈ q.jobs.filter (fun j => decide (j.status = ExportStatus.queued)) :=
    hperm.mem_iff.mp (by rw [hrest]; exact List.mem_cons_self _ _)
  have hjmem := List.mem_filter.mp hjq0
  have hjjobs : j ∈ q.jobs := hjmem.1
  have hjqueued : j.status = ExportStatus.queued := by simpa using hjmem.2
  have hsorted := List.sorted_mergeSort htrans htotal
    (q.jobs.filter (fun j => decide (j.status = ExportStatus.queued)))
  rw [hrest] at hsorted
  have hdom : ∀ k ∈ q.jobs.filter (fun j => decide (j.status = ExportStatus.queued)),
      k.priority ≤ j.priority := by
    intro k hk
    have hk' : k ∈ j :: rest := by
      rw [← hrest]
      exact hperm.mem_iff.mpr hk
    rcases List.mem_cons.mp hk' with rfl | hm
    · omega
    · have := (List.pairwise_cons.mp hsorted).1 k hm
      simpa using this
  refine ⟨hjjobs, hjqueued, ?_, ?_⟩
  · intro k hk hkq
    exact hdom k (List.mem_filter.mpr ⟨hk, by simp [hkq]⟩)
  · refine find?_first _ q.jobs j hjjobs (by simp [hjqueued]) ?_
    intro x hsub hpx
    simp only [decide_eq_true_eq] at hpx
    obtain ⟨hxq, hxp⟩ := hpx
    have hsub0 : List.Sublist [x, j]
        (q.jobs.filter (fun j => decide (j.status = ExportStatus.queued))) := by
      have hfs := hsub.filter (fun j => decide (j.status = ExportStatus.queued))
      simpa [List.filter_cons, hxq, hjqueued] using hfs
    have hpw : List.Pairwise
        (fun a b : ExportJob =>
          (fun a b : ExportJob => decide (b.priority ≤ a.priority)) a b = true)
        [x, j] := by
      refine List.pairwise_cons.mpr ⟨?_, List.pairwise_singleton _ _⟩
      intro b hb
      rw [List.mem_singleton] at hb
      subst hb
      simpa using hxp
    have hstab := List.mergeSort_stable htrans htotal hpw hsub0
    rw [hrest] at hstab
    have hnodup0 : (j :: rest).Nodup := by
      have hjobsnd : q.jobs.Nodup := List.Nodup.of_map _ hnd
      have hq0nd : (q.jobs.filter
          (fun j => decide (j.status = ExportStatus.queued))).Nodup :=
        List.Nodup.filter _ hjobsnd
      have := hperm.symm.nodup hq0nd
      rwa [hrest] at this
    cases hstab with
    | cons _ h =>
        exact absurd (h.subset (by simp)) (List.nodup_cons.mp hnodup0).1
    | cons₂ h => rfl

/-- C6 (amended): from the initial queue, under any sequence of the queue
operations in which each `set_max_concurrent` call requests a cap at least
as large as the current active-job count, the number of jobs in
{Preparing, FirstPass, SecondPass, Encoding, Finalizing} never exceeds
`max_concurrent`; `start_next` returns None without starting anything when
the active count has reached the cap, and any job it does start is a
Queued job of maximal priority, ties broken by insertion order (it is the
first job, in insertion order, that is Queued with priority at least that
maximum).  An unguarded `set_max_concurrent` can lower the cap below the
active count — see the counterexample. -/
theorem export_queue_concurrency :
    (∀ q, QueueReachable q → q.activeJobs.length ≤ q.maxConcurrent) ∧
      (∀ q : ExportQueue, q.maxConcurrent ≤ q.activeCount → q.startNext = (q, none)) ∧
      ∀ (q : ExportQueue) (id : Nat), (q.jobs.map (fun j => j.id)).Nodup →
        q.startNext.2 = some id →
        ∃ j ∈ q.jobs, j.id = id ∧ j.status = ExportStatus.queued ∧
          (∀ k ∈ q.jobs, k.status = ExportStatus.queued → k.priority ≤ j.priority) ∧
          q.jobs.find? (fun k =>
            decide (k.status = ExportStatus.queued ∧ j.priority ≤ k.priority)) = some j := by
  refine ⟨?_, ?_, ?_⟩
  · intro q h
    exact (queueInv_of_reachable q h).2.2.2.2
  · intro q hcap
    unfold ExportQueue.startNext
    rw [if_pos hcap]
  · intro q id hnd hsome
    by_cases hguard : q.maxConcurrent ≤ q.activeCount
    · have hs : q.startNext = (q, none) := by
        unfold ExportQueue.startNext
        rw [if_pos hguard]
      rw [hs] at hsome
      exact Option.noConfusion hsome
    · cases hh : (ExportQueue.queuedJobs q).head? with
      | none =>
          have hs : q.startNext = (q, none) := by
            simp only [ExportQueue.startNext, if_neg hguard, hh]
          rw [hs] at hsome
          exact Option.noConfusion hsome
      | some j =>
          cases hg : q.getJob j.id with
          | none =>
              have hs : q.startNext = (q, none) := by
                simp only [ExportQueue.startNext, if_neg hguard, hh, hg]
              rw [hs] at hsome
              exact Option.noConfusion hsome
          | some k =>
              have hs : q.startNext.2 = some j.id := by
                simp only [ExportQueue.startNext, if_neg hguard, hh, hg]
              rw [hs] at hsome
              have hid : j.id = id := (Option.some.injEq _ _).mp hsome
              obtain ⟨h1, h2, h3, h4⟩ := queued_head_spec q j hnd hh
              exact ⟨j, h1, hid, h2, h3, h4⟩

theorem cex_queued12 :
    ExportQueue.queuedJobs twoJobQueue = [cexJob1, cexJob2] := by
  show ([cexJob1, cexJob2] : List ExportJob).mergeSort
    (fun a b => decide (b.priority ≤ a.priority)) = [cexJob1, cexJob2]
  exact List.mergeSort_of_sorted (by decide)

theorem cex_start1 :
    ExportQueue.startNext twoJobQueue = (twoJobQueueS1, some 1) := by
  unfold ExportQueue.startNext
  rw [cex_queued12]
  rfl

theorem cex_queued2 :
    ExportQueue.queuedJobs twoJobQueueS1 = [cexJob2] := by
  show ([cexJob2] : List ExportJob).mergeSort
    (fun a b => decide (b.priority ≤ a.priority)) = [cexJob2]
  exact List.mergeSort_singleton _

theorem cex_start2 :
    ExportQueue.startNext twoJobQueueS1 = (twoJobQueueS2, some 2) := by
  unfold ExportQueue.startNext
  rw [cex_queued2]
  rfl

/-- Counterexample to C6 as stated: adding two jobs, raising the cap to 2,
starting both, and then calling `set_max_concurrent 1` (one of the claim's
listed operations) leaves two active jobs while `max_concurrent` is 1. -/
theorem export_queue_concurrency_cex :
    ((((ExportQueue.new.addJob 0 0 0).1.addJob 0 0 0).1.setMaxConcurrent
          2).startNext.1.startNext.1.setMaxConcurrent 1).activeJobs.length = 2 ∧
      ((((ExportQueue.new.addJob 0 0 0).1.addJob 0 0 0).1.setMaxConcurrent
          2).startNext.1.startNext.1.setMaxConcurrent 1).maxConcurrent = 1 := by
  have h2 : ((ExportQueue.new.addJob 0 0 0).1.addJob 0 0 0).1.setMaxConcurrent 2 =
      twoJobQueue := rfl
  rw [h2, cex_start1]
  simp only
  rw [cex_start2]
  simp only
  constructor
  · rfl
  · rfl

/-- Witness for C6 (amended) at the initial queue, a saturated queue, and
a two-job queue whose `start_next` picks job 1. -/
theorem export_queue_concurrency_witness :
    (QueueReachable ExportQueue.new ∧
        ExportQueue.new.activeJobs.length ≤ ExportQueue.new.maxConcurrent) ∧
      (satQueue.maxConcurrent ≤ satQueue.activeCount ∧
        satQueue.startNext = (satQueue, none)) ∧
      ∃ j ∈ twoJobQueue.jobs,
        j.id = 1 ∧ j.status = ExportStatus.queued ∧
          (∀ k ∈ twoJobQueue.jobs,
            k.status = ExportStatus.queued → k.priority ≤ j.priority) ∧
          twoJobQueue.jobs.find?
            (fun k => decide (k.status = ExportStatus.queued ∧
              j.priority ≤ k.priority)) = some j :=
  ⟨⟨QueueReachable.init, export_queue_concurrency.1 _ QueueReachable.init⟩,
    ⟨by decide, export_queue_concurrency.2.1 _ (by decide)⟩,
    export_queue_concurrency.2.2 twoJobQueue 1 (by decide) (by rw [cex_start1])⟩

/-- C7: `retry_job` errors exactly when the job is missing or neither
Failed nor Cancelled, leaving the queue unchanged; on success it appends a
brand-new Queued job under the fresh id `next_id` (distinct from the old
job id whenever the ids in the queue are below the counter, as the queue
maintains), cloning the settings, total frame count and project id, and
leaves every existing job — the original included — unchanged. -/
theorem export_queue_retry_spec (q : ExportQueue) (id : Nat) :
    (q.getJob id = none → q.retryJob id = (q, Except.error "Job not found")) ∧
      (∀ j, q.getJob id = some j →
        ¬(j.status = ExportStatus.failed ∨ j.status = ExportStatus.cancelled) →
        q.retryJob id = (q, Except.error "Can only retry failed/cancelled jobs")) ∧
      ∀ j, q.getJob id = some j →
        (j.status = ExportStatus.failed ∨ j.status = ExportStatus.cancelled) →
        (q.retryJob id).2 = Except.ok q.nextId ∧
          (q.retryJob id).1.jobs = q.jobs ++
            [{ id := q.nextId, projectId := j.projectId, settings := j.settings,
               totalFrames := j.totalFrames, status := ExportStatus.queued,
               priority := 0 }] ∧
          (q.retryJob id).1.nextId = q.nextId + 1 ∧
          ((∀ k ∈ q.jobs, k.id < q.nextId) → q.nextId ≠ id) := by
  refine ⟨?_, ?_, ?_⟩
  · intro hg
    simp only [ExportQueue.retryJob, hg]
  · intro j hg hst
    simp only [ExportQueue.retryJob, hg]
    rw [if_neg hst]
  · intro j hg hst
    have hs : q.retryJob id =
        ((q.addJob j.projectId j.settings j.totalFrames).1,
          Except.ok (q.addJob j.projectId j.settings j.totalFrames).2) := by
      simp only [ExportQueue.retryJob, hg]
      rw [if_pos hst]
    rw [hs]
    refine ⟨rfl, rfl, rfl, ?_⟩
    intro hbound he
    have hjm : j ∈ q.jobs := List.mem_of_find?_eq_some hg
    have hjid : j.id = id := by
      have := List.find?_some hg
      simpa using this
    have := hbound j hjm
    omega

/-- Witness for C7: retrying the cancelled job 1 of a one-job queue, and
the two error cases. -/
theorem export_queue_retry_spec_witness :
    (((ExportQueue.new.addJob 7 3 100).1.cancelJob 1).1.getJob 9 = none ∧
        ((ExportQueue.new.addJob 7 3 100).1.cancelJob 1).1.retryJob 9 =
          (((ExportQueue.new.addJob 7 3 100).1.cancelJob 1).1,
            Except.error "Job not found")) ∧
      ((ExportQueue.new.addJob 7 3 100).1.cancelJob 1).1.getJob 1 =
          some { id := 1, projectId := 7, settings := 3, totalFrames := 100,
                 status := ExportStatus.cancelled, priority := 0 } ∧
        ((((ExportQueue.new.addJob 7 3 100).1.cancelJob 1).1.retryJob 1).2 =
            Except.ok 2 ∧
          ((((ExportQueue.new.addJob 7 3 100).1.cancelJob 1).1.retryJob 1).1.jobs =
            ((ExportQueue.new.addJob 7 3 100).1.cancelJob 1).1.jobs ++
              [{ id := 2, projectId := 7, settings := 3, totalFrames := 100,
                 status := ExportStatus.queued, priority := 0 }])) := by
  refine ⟨⟨by decide, (export_queue_retry_spec _ 9).1 (by decide)⟩, by decide, ?_, ?_⟩
  · exact ((export_queue_retry_spec _ 1).2.2
      { id := 1, projectId := 7, settings := 3, totalFrames := 100,
        status := ExportStatus.cancelled, priority := 0 } (by decide) (Or.inr rfl)).1
  · exact ((export_queue_retry_spec _ 1).2.2
      { id := 1, projectId := 7, settings := 3, totalFrames := 100,
        status := ExportStatus.cancelled, priority := 0 } (by decide) (Or.inr rfl)).2.1

/-- Witness for C9: a 100 ms transition updated at 40 ms past its start,
at its start, and a zero-duration transition. -/
theorem transition_update_progress_witness :
    ((⟨1, ⟨100⟩, 0, true⟩ : Transition).update ⟨140⟩ ⟨100⟩).progress =
        qclamp (((140 - 100 : ℕ) : ℚ) / ((100 : ℕ) : ℚ)) 0 1 ∧
      ((⟨1, ⟨100⟩, 0, true⟩ : Transition).update ⟨50⟩ ⟨100⟩).progress = 0 ∧
      ((⟨2, ⟨0⟩, 0, true⟩ : Transition).update ⟨50⟩ ⟨100⟩).progress = 1 :=
  ⟨(transition_update_progress ⟨1, ⟨100⟩, 0, true⟩ ⟨140⟩ ⟨100⟩).2.1 (by decide),
    (transition_update_progress ⟨1, ⟨100⟩, 0, true⟩ ⟨50⟩ ⟨100⟩).2.2.2 (by decide) (by decide),
    (transition_update_progress ⟨2, ⟨0⟩, 0, true⟩ ⟨50⟩ ⟨100⟩).1 (by decide)⟩

end EssentiaSpec
